import Mathlib

/-!
Verification development for the `agentfiles` tool (Rust).

Strings are modelled as `List Char` (`Str`), file-system paths as lists of
components (`List Str`), and the file system itself as a finite tree.
Each Rust function of the core pipeline (source normalization, scanning,
pick-filtering, strategy resolution, placement, manifest ledger) is embedded
as an executable Lean function translated from the source; theorems then
settle the specification claims against these embeddings.
-/

namespace Agentfiles

/-- Strings, modelled as lists of characters. -/
abbrev Str := List Char

/-- `str::starts_with`. -/
def startsWith (p s : Str) : Bool := p.isPrefixOf s

/-! ## git.rs -/

/-- The scheme / SCP-prefix test used by `normalize_url` in `git.rs`:
`https://`, `http://`, `git://`, `ssh://` or `git@`. -/
def hasSchemeOrScp (url : Str) : Bool :=
  startsWith (("https://").data) url ||
  startsWith (("http://").data) url ||
  startsWith (("git://").data) url ||
  startsWith (("ssh://").data) url ||
  startsWith (("git@").data) url

/-- `normalize_url` (git.rs): keep URLs that already carry a scheme or are
SCP-style, otherwise prepend `https://`. -/
def normalize_url (url : Str) : Str :=
  if hasSchemeOrScp url then url else (("https://").data) ++ url

/-- `strip_ref` (git.rs): split a trailing `@ref`, recognized only when the
`@` occurs after the last `/` of the input and the ref part is non-empty.
Computed on the reversed string: the segment after the last `/` is
`rev.takeWhile (· ≠ '/')`, and the rightmost `@` inside it is the first `@`
of that reversed segment. -/
def stripRef (input : Str) : Str × Option Str :=
  if '/' ∈ input then
    if '@' ∈ input.reverse.takeWhile (· ≠ '/') then
      if ((input.reverse.takeWhile (· ≠ '/')).takeWhile (· ≠ '@')).isEmpty then
        (input, none)
      else
        ((input.reverse.drop
            (((input.reverse.takeWhile (· ≠ '/')).takeWhile (· ≠ '@')).length + 1)).reverse,
          some ((input.reverse.takeWhile (· ≠ '/')).takeWhile (· ≠ '@')).reverse)
    else (input, none)
  else (input, none)

/-- `str::trim_end_matches(".git")`, acting on the reversed string: strip the
prefix `tig.` (i.e. the suffix `.git`) as often as it occurs. -/
def trimDotGitRev : Str → Str
  | 't' :: 'i' :: 'g' :: '.' :: rest => trimDotGitRev rest
  | l => l

/-- `normalize_source` (git.rs): strip `@ref`, normalize the scheme, strip
all trailing `.git`. -/
def normalize_source (input : Str) : Str :=
  (trimDotGitRev (normalize_url (stripRef input).1).reverse).reverse

/-- `ParsedRemote` (git.rs). -/
structure ParsedRemote where
  url : Str
  git_ref : Option Str
deriving DecidableEq, Repr

/-- `parse_remote` (git.rs). -/
def parse_remote (input : Str) : ParsedRemote :=
  let p := stripRef input
  { url := normalize_url p.1, git_ref := p.2 }

/-! ### List helper lemmas -/

theorem takeWhile_append_of_forall {p : Char → Bool} {xs ys : Str}
    (h : ∀ x ∈ xs, p x = true) :
    (xs ++ ys).takeWhile p = xs ++ ys.takeWhile p := by
  rw [List.takeWhile_append, if_pos]
  rw [List.takeWhile_eq_self_iff.2 h]

theorem takeWhile_append_of_mem {p : Char → Bool} {xs ys : Str}
    (h : ∃ x ∈ xs, p x = false) :
    (xs ++ ys).takeWhile p = xs.takeWhile p := by
  rw [List.takeWhile_append, if_neg]
  intro hlen
  have heq : xs.takeWhile p = xs := (List.takeWhile_sublist p).eq_of_length hlen
  obtain ⟨x, hx, hpx⟩ := h
  have := List.takeWhile_eq_self_iff.1 heq x hx
  rw [this] at hpx
  exact absurd hpx (by simp)

theorem mem_of_mem_takeWhile {p : Char → Bool} {l : Str} {a : Char}
    (h : a ∈ l.takeWhile p) : a ∈ l :=
  (List.takeWhile_sublist p).subset h

theorem length_takeWhile_lt {p : Char → Bool} {l : Str} {x : Char}
    (hx : x ∈ l) (hpx : p x = false) : (l.takeWhile p).length < l.length := by
  rcases Nat.lt_or_ge (l.takeWhile p).length l.length with h | h
  · exact h
  · have hle := (List.takeWhile_sublist (l := l) p).length_le
    have heq : l.takeWhile p = l :=
      (List.takeWhile_sublist p).eq_of_length (Nat.le_antisymm hle h)
    have := List.takeWhile_eq_self_iff.1 heq x hx
    rw [this] at hpx
    exact absurd hpx (by simp)

theorem head?_dropWhile_false {p : Char → Bool} :
    ∀ (l : Str) {a : Char}, (l.dropWhile p).head? = some a → p a = false := by
  intro l
  induction l with
  | nil => intro a h; simp [List.dropWhile] at h
  | cons b t ih =>
    intro a h
    rw [List.dropWhile_cons] at h
    by_cases hp : p b = true
    · rw [if_pos hp] at h
      exact ih h
    · rw [Bool.not_eq_true] at hp
      rw [if_neg (by rw [hp]; exact Bool.false_ne_true)] at h
      have : b = a := by simpa using h
      rw [← this]
      exact hp

/-! ### Properties of `strip_ref` -/

/-- `strip_ref` either finds no ref and returns the input unchanged, or
finds one. -/
theorem stripRef_cases (s : Str) :
    stripRef s = (s, none) ∨ ∃ b r, stripRef s = (b, some r) := by
  unfold stripRef
  by_cases h1 : '/' ∈ s
  · rw [if_pos h1]
    by_cases h2 : '@' ∈ s.reverse.takeWhile (· ≠ '/')
    · rw [if_pos h2]
      by_cases h3 :
          ((s.reverse.takeWhile (· ≠ '/')).takeWhile (· ≠ '@')).isEmpty
      · rw [if_pos h3]; exact Or.inl rfl
      · rw [if_neg h3]; exact Or.inr ⟨_, _, rfl⟩
    · rw [if_neg h2]; exact Or.inl rfl
  · rw [if_neg h1]; exact Or.inl rfl

/-- If `strip_ref` extracts a ref, the input splits as `base ++ '@' :: ref`,
the ref is non-empty and contains neither `/` nor `@`, and the base contains
the final `/` of the input (so the delimiting `@` lies after the last `/`). -/
theorem stripRef_eq_some {s b r : Str} (h : stripRef s = (b, some r)) :
    s = b ++ '@' :: r ∧ r ≠ [] ∧ '/' ∉ r ∧ '@' ∉ r ∧ '/' ∈ b := by
  unfold stripRef at h
  by_cases h1 : '/' ∈ s
  case neg => rw [if_neg h1] at h; simp at h
  rw [if_pos h1] at h
  by_cases h2 : '@' ∈ s.reverse.takeWhile (· ≠ '/')
  case neg => rw [if_neg h2] at h; simp at h
  rw [if_pos h2] at h
  by_cases h3 : ((s.reverse.takeWhile (· ≠ '/')).takeWhile (· ≠ '@')).isEmpty
  case pos => rw [if_pos h3] at h; simp at h
  rw [if_neg h3] at h
  set A := s.reverse.takeWhile (· ≠ '/') with hA
  set R := A.takeWhile (· ≠ '@') with hR
  set D := A.dropWhile (· ≠ '@') with hD
  have hRD : R ++ D = A := List.takeWhile_append_dropWhile ..
  have hDne : D ≠ [] := by
    intro hnil
    have hall := List.dropWhile_eq_nil_iff.1 hnil '@' h2
    simp at hall
  obtain ⟨d, dt, hDcons⟩ := List.exists_cons_of_ne_nil hDne
  have hd : d = '@' := by
    have hph : (fun x => decide (x ≠ '@')) d = false := by
      refine head?_dropWhile_false (p := fun x => decide (x ≠ '@')) A ?_
      rw [← hD, hDcons]
      rfl
    simpa using hph
  have hDsplit : D = '@' :: dt := by rw [hDcons, hd]
  have hrevsplit : s.reverse = R ++ '@' :: (dt ++ s.reverse.dropWhile (· ≠ '/')) := by
    conv_lhs => rw [← List.takeWhile_append_dropWhile (p := (· ≠ '/')) (l := s.reverse)]
    rw [← hA, ← hRD, hDsplit]
    simp
  have hRne : R ≠ [] := by
    intro hnil
    rw [hnil] at h3
    simp at h3
  have hdrop : s.reverse.drop (R.length + 1) =
      dt ++ s.reverse.dropWhile (· ≠ '/') := by
    conv_lhs => rw [hrevsplit]
    have hsplit2 : R ++ '@' :: (dt ++ s.reverse.dropWhile (· ≠ '/')) =
        (R ++ ['@']) ++ (dt ++ s.reverse.dropWhile (· ≠ '/')) := by simp
    rw [hsplit2]
    have hlen : R.length + 1 = (R ++ ['@']).length := by simp
    rw [hlen, List.drop_left]
  have hb : b = (dt ++ s.reverse.dropWhile (· ≠ '/')).reverse := by
    have hfst := (Prod.ext_iff.1 h).1
    simp only at hfst
    rw [← hfst, hdrop]
  have hr : r = R.reverse := by
    have hsnd := (Prod.ext_iff.1 h).2
    simp only at hsnd
    exact (Option.some.inj hsnd).symm
  have hsplit : s = b ++ '@' :: r := by
    have hrr : s = s.reverse.reverse := by simp
    rw [hrr, hrevsplit, hb, hr]
    simp
  have hrne : r ≠ [] := by
    rw [hr]
    simpa using hRne
  have hslash_r : '/' ∉ r := by
    rw [hr]
    intro hmem
    have hmemR : '/' ∈ R := by simpa using hmem
    have hmemA : '/' ∈ A := mem_of_mem_takeWhile hmemR
    have := List.mem_takeWhile_imp (l := s.reverse) hmemA
    simp at this
  have hat_r : '@' ∉ r := by
    rw [hr]
    intro hmem
    have hmemR : '@' ∈ R := by simpa using hmem
    have := List.mem_takeWhile_imp (l := A) hmemR
    simp at this
  have hslash_b : '/' ∈ b := by
    have hmem : '/' ∈ b ++ '@' :: r := by rw [← hsplit]; exact h1
    rcases List.mem_append.1 hmem with hmb | hmr
    · exact hmb
    · rcases List.mem_cons.1 hmr with hcontra | hmr2
      · exact absurd hcontra (by decide)
      · exact absurd hmr2 hslash_r
  exact ⟨hsplit, hrne, hslash_r, hat_r, hslash_b⟩

/-- The base returned by `strip_ref` is a prefix of the input. -/
theorem stripRef_fst_isPre (s : Str) : (stripRef s).1 <+: s := by
  rcases stripRef_cases s with h | ⟨b, r, h⟩
  · rw [h]
  · rw [h]
    obtain ⟨hsplit, -, -, -, -⟩ := stripRef_eq_some h
    exact ⟨'@' :: r, hsplit.symm⟩

/-- If `strip_ref` finds no ref, the base is the whole input. -/
theorem stripRef_none_fst {s : Str} (h : (stripRef s).2 = none) :
    (stripRef s).1 = s := by
  rcases stripRef_cases s with h2 | ⟨b, r, h2⟩
  · rw [h2]
  · rw [h2] at h; simp at h

/-- Computation rule: appending `@ref` to a base containing `/`, with a
non-empty ref free of `/` and `@`, makes `strip_ref` split exactly there. -/
theorem stripRef_append_ref {s r : Str} (hs : '/' ∈ s) (hr : r ≠ [])
    (hr1 : '/' ∉ r) (hr2 : '@' ∉ r) :
    stripRef (s ++ '@' :: r) = (s, some r) := by
  unfold stripRef
  have hmem : '/' ∈ s ++ '@' :: r := List.mem_append.2 (Or.inl hs)
  rw [if_pos hmem]
  have hrev : (s ++ '@' :: r).reverse = r.reverse ++ '@' :: s.reverse := by simp
  rw [hrev]
  have hall : ∀ x ∈ r.reverse, (fun x => decide (x ≠ '/')) x = true := by
    intro x hx
    simp only [decide_eq_true_eq]
    intro heq
    exact hr1 (heq ▸ List.mem_reverse.1 hx)
  have hA : (r.reverse ++ '@' :: s.reverse).takeWhile (· ≠ '/') =
      r.reverse ++ '@' :: s.reverse.takeWhile (· ≠ '/') := by
    rw [takeWhile_append_of_forall hall]
    simp
  rw [hA]
  have hat : '@' ∈ r.reverse ++ '@' :: s.reverse.takeWhile (· ≠ '/') := by
    simp
  rw [if_pos hat]
  have hall2 : ∀ x ∈ r.reverse, (fun x => decide (x ≠ '@')) x = true := by
    intro x hx
    simp only [decide_eq_true_eq]
    intro heq
    exact hr2 (heq ▸ List.mem_reverse.1 hx)
  have hRcomp : (r.reverse ++ '@' :: s.reverse.takeWhile (· ≠ '/')).takeWhile (· ≠ '@') =
      r.reverse := by
    rw [takeWhile_append_of_forall hall2]
    simp
  rw [hRcomp]
  have hne : r.reverse.isEmpty = false := by
    rw [Bool.eq_false_iff]
    intro hcontra
    exact hr (by simpa using List.isEmpty_iff.1 hcontra)
  rw [if_neg (by rw [hne]; exact Bool.false_ne_true)]
  have hsplit : r.reverse ++ '@' :: s.reverse =
      (r.reverse ++ ['@']) ++ s.reverse := by simp
  have hlen : r.reverse.length + 1 = (r.reverse ++ ['@']).length := by simp
  rw [hsplit, hlen, List.drop_left]
  simp

/-- Computation rule: any left extension of an input containing `/` changes
only the base of `strip_ref`, not the extracted ref. -/
theorem stripRef_append_left (pre : Str) {s : Str} (hs : '/' ∈ s) :
    stripRef (pre ++ s) = (pre ++ (stripRef s).1, (stripRef s).2) := by
  unfold stripRef
  rw [if_pos hs]
  rw [if_pos (List.mem_append.2 (Or.inr hs))]
  rw [List.reverse_append]
  have hA : (s.reverse ++ pre.reverse).takeWhile (· ≠ '/') =
      s.reverse.takeWhile (· ≠ '/') :=
    takeWhile_append_of_mem ⟨'/', by simpa using hs, by simp⟩
  rw [hA]
  by_cases h2 : '@' ∈ s.reverse.takeWhile (· ≠ '/')
  · rw [if_pos h2, if_pos h2]
    by_cases h3 : ((s.reverse.takeWhile (· ≠ '/')).takeWhile (· ≠ '@')).isEmpty
    · rw [if_pos h3, if_pos h3]
    · rw [if_neg h3, if_neg h3]
      have hlt : ((s.reverse.takeWhile (· ≠ '/')).takeWhile (· ≠ '@')).length + 1 ≤
          s.reverse.length := by
        have h4 : ((s.reverse.takeWhile (· ≠ '/')).takeWhile (· ≠ '@')).length ≤
            (s.reverse.takeWhile (· ≠ '/')).length :=
          (List.takeWhile_sublist _).length_le
        have h5 : (s.reverse.takeWhile (· ≠ '/')).length < s.reverse.length :=
          length_takeWhile_lt (by simpa using hs) (by simp)
        omega
      rw [List.drop_append_of_le_length hlt]
      simp
  · rw [if_neg h2, if_neg h2]

/-! ### `normalize_url` and `normalize_source` invariances (C6) -/

theorem hasSchemeOrScp_of_isPre {b s : Str} (hp : b <+: s)
    (h : hasSchemeOrScp s = false) : hasSchemeOrScp b = false := by
  unfold hasSchemeOrScp startsWith at h ⊢
  simp only [Bool.or_eq_false_iff] at h ⊢
  obtain ⟨⟨⟨⟨h1, h2⟩, h3⟩, h4⟩, h5⟩ := h
  refine ⟨⟨⟨⟨?_, ?_⟩, ?_⟩, ?_⟩, ?_⟩ <;>
    · rw [Bool.eq_false_iff]
      intro hc
      have := (List.isPrefixOf_iff_prefix.1 hc).trans hp
      rw [← List.isPrefixOf_iff_prefix] at this
      first
        | exact absurd this (by rw [h1]; exact Bool.false_ne_true)
        | exact absurd this (by rw [h2]; exact Bool.false_ne_true)
        | exact absurd this (by rw [h3]; exact Bool.false_ne_true)
        | exact absurd this (by rw [h4]; exact Bool.false_ne_true)
        | exact absurd this (by rw [h5]; exact Bool.false_ne_true)

/-- Appending a chunk that starts with `.` (such as `.git`) never changes
whether a string carries a URL scheme or SCP prefix, because none of the
recognized prefixes contains a `.`. -/
theorem hasSchemeOrScp_append_dot {s t : Str} :
    hasSchemeOrScp (s ++ '.' :: t) = hasSchemeOrScp s := by
  have key : ∀ p : Str, '.' ∉ p →
      (p.isPrefixOf (s ++ '.' :: t)) = (p.isPrefixOf s) := by
    intro p hdot
    rcases hbool : p.isPrefixOf s with _ | _
    · rw [Bool.eq_false_iff]
      intro hc
      have hps : p <+: s ++ '.' :: t := List.isPrefixOf_iff_prefix.1 hc
      have hss : s <+: s ++ '.' :: t := ⟨'.' :: t, rfl⟩
      rcases List.prefix_or_prefix_of_prefix hps hss with hcase | hcase
      · rw [← List.isPrefixOf_iff_prefix] at hcase
        rw [hcase] at hbool
        exact Bool.noConfusion hbool
      · obtain ⟨q, hq⟩ := hcase
        rcases q with _ | ⟨c, q⟩
        · simp only [List.append_nil] at hq
          rw [← hq] at hbool
          have : s.isPrefixOf s = true :=
            List.isPrefixOf_iff_prefix.2 (List.prefix_refl s)
          rw [this] at hbool
          exact Bool.noConfusion hbool
        · have hcp : c = '.' := by
            have : s ++ c :: q <+: s ++ '.' :: t := hq ▸ hps
            have := (List.prefix_append_right_inj s).1 this
            obtain ⟨u, hu⟩ := this
            exact (List.cons.injEq .. ▸ hu.symm).1.symm ▸ rfl
          apply absurd _ hdot
          rw [← hq, hcp]
          simp
    · have : p <+: s := List.isPrefixOf_iff_prefix.1 hbool
      rw [List.isPrefixOf_iff_prefix.2 (this.trans ⟨'.' :: t, rfl⟩)]
  unfold hasSchemeOrScp startsWith
  rw [key _ (by decide), key _ (by decide), key _ (by decide), key _ (by decide),
    key _ (by decide)]

theorem trim_rev_append_dotgit (x : Str) :
    trimDotGitRev (x ++ ((".git").data)).reverse = trimDotGitRev x.reverse := by
  have h : (x ++ ((".git").data)).reverse = 't' :: 'i' :: 'g' :: '.' :: x.reverse := by
    simp [show ((".git").data) = ['.', 'g', 'i', 't'] from rfl]
  rw [h]
  rfl

theorem normalize_url_append_dotgit (s : Str) :
    normalize_url (s ++ ((".git").data)) = normalize_url s ++ ((".git").data) := by
  unfold normalize_url
  have hd : (s ++ ((".git").data)) = s ++ '.' :: (("git").data) := rfl
  rw [hd, hasSchemeOrScp_append_dot]
  by_cases h : hasSchemeOrScp s
  · rw [if_pos h, if_pos h]
  · rw [if_neg h, if_neg h]
    simp

/-- Scheme invariance of `normalize_source`: prepending `https://` to a
scheme-less, non-SCP source that either contains a `/` or no `@` does not
change the normalized form. -/
theorem normalize_source_scheme_invariant {s : Str}
    (h1 : hasSchemeOrScp s = false) (h2 : '/' ∈ s ∨ '@' ∉ s) :
    normalize_source ((("https://").data) ++ s) = normalize_source s := by
  by_cases hs : '/' ∈ s
  · have hsplit := stripRef_append_left (("https://").data) hs
    unfold normalize_source
    rw [hsplit]
    have hb : hasSchemeOrScp (stripRef s).1 = false :=
      hasSchemeOrScp_of_isPre (stripRef_fst_isPre s) h1
    have hnu1 : normalize_url ((("https://").data) ++ (stripRef s).1) =
        (("https://").data) ++ (stripRef s).1 := by
      unfold normalize_url
      rw [if_pos]
      unfold hasSchemeOrScp startsWith
      have : (("https://").data).isPrefixOf ((("https://").data) ++ (stripRef s).1) = true :=
        List.isPrefixOf_iff_prefix.2 ⟨(stripRef s).1, rfl⟩
      simp [this]
    have hnu2 : normalize_url (stripRef s).1 = (("https://").data) ++ (stripRef s).1 := by
      unfold normalize_url
      rw [if_neg (by rw [hb]; exact Bool.false_ne_true)]
    rw [hnu1, hnu2]
  · have hna : '@' ∉ s := by
      rcases h2 with h2a | h2b
      · exact absurd h2a hs
      · exact h2b
    have hnone1 : stripRef s = (s, none) := by
      unfold stripRef
      rw [if_neg hs]
    have hmem : '/' ∈ (("https://").data) ++ s := by
      refine List.mem_append.2 (Or.inl ?_)
      decide
    have hrevA : ((("https://").data) ++ s).reverse.takeWhile (· ≠ '/') = s.reverse := by
      rw [List.reverse_append]
      have hall : ∀ x ∈ s.reverse, (fun x => decide (x ≠ '/')) x = true := by
        intro x hx
        simp only [decide_eq_true_eq]
        intro heq
        exact hs (heq ▸ List.mem_reverse.1 hx)
      rw [takeWhile_append_of_forall hall]
      have : ((("https://").data).reverse).takeWhile (fun x => decide (x ≠ '/')) = [] := by
        decide
      rw [this, List.append_nil]
    have hnone2 : stripRef ((("https://").data) ++ s) = ((("https://").data) ++ s, none) := by
      unfold stripRef
      rw [if_pos hmem, hrevA]
      rw [if_neg (by
        intro hat
        exact hna (List.mem_reverse.1 hat))]
    unfold normalize_source
    rw [hnone1, hnone2]
    have hnu2 : normalize_url s = (("https://").data) ++ s := by
      unfold normalize_url
      rw [if_neg (by rw [h1]; exact Bool.false_ne_true)]
    have hnu1 : normalize_url ((("https://").data) ++ s) = (("https://").data) ++ s := by
      unfold normalize_url
      rw [if_pos]
      unfold hasSchemeOrScp startsWith
      have : (("https://").data).isPrefixOf ((("https://").data) ++ s) = true :=
        List.isPrefixOf_iff_prefix.2 ⟨s, rfl⟩
      simp [this]
    rw [hnu1, hnu2]

/-- Ref invariance of `normalize_source`: appending `@ref` (non-empty, free
of `/` and `@`) to a base that contains a `/` and carries no ref of its own
does not change the normalized form. -/
theorem normalize_source_ref_invariant {s r : Str} (hs : '/' ∈ s)
    (hnone : (stripRef s).2 = none) (hr : r ≠ []) (hr1 : '/' ∉ r) (hr2 : '@' ∉ r) :
    normalize_source (s ++ '@' :: r) = normalize_source s := by
  have h1 := stripRef_append_ref hs hr hr1 hr2
  have h2 : (stripRef s).1 = s := stripRef_none_fst hnone
  unfold normalize_source
  rw [h1, h2]

/-- `.git` invariance of `normalize_source`: appending `.git` to a source
that does not end in `@` does not change the normalized form. -/
theorem normalize_source_dotgit_invariant {s : Str} (h : s.getLast? ≠ some '@') :
    normalize_source (s ++ ((".git").data)) = normalize_source s := by
  have hgit_slash : '/' ∉ ((".git").data) := by decide
  have hgit_at : '@' ∉ ((".git").data) := by decide
  by_cases hs : '/' ∈ s
  · -- the trailing chunk has no '/', so the after-last-slash segment grows by `tig.`
    have hmem : '/' ∈ s ++ ((".git").data) := List.mem_append.2 (Or.inl hs)
    have hrev : (s ++ ((".git").data)).reverse = 't' :: 'i' :: 'g' :: '.' :: s.reverse := by
      simp [show ((".git").data) = ['.', 'g', 'i', 't'] from rfl]
    have hA : (s ++ ((".git").data)).reverse.takeWhile (· ≠ '/') =
        't' :: 'i' :: 'g' :: '.' :: s.reverse.takeWhile (· ≠ '/') := by
      rw [hrev]
      have : ('t' :: 'i' :: 'g' :: '.' :: s.reverse) =
          ['t', 'i', 'g', '.'] ++ s.reverse := rfl
      rw [this, takeWhile_append_of_forall (by decide)]
      rfl
    by_cases h2 : '@' ∈ s.reverse.takeWhile (· ≠ '/')
    · -- a candidate '@' exists; since s does not end in '@', the extracted ref
      -- just grows by `tig.` and the base is unchanged
      set A := s.reverse.takeWhile (· ≠ '/') with hAdef
      set R := A.takeWhile (· ≠ '@') with hRdef
      have hRne : R ≠ [] := by
        intro hnil
        obtain ⟨a, t, hAcons⟩ := List.exists_cons_of_ne_nil
          (show A ≠ [] by intro hA0; rw [hA0] at h2; simp at h2)
        have hpa : (fun x => decide (x ≠ '@')) a = false := by
          rcases hcase : (fun x => decide (x ≠ '@')) a with _ | _
          · rfl
          · rw [hRdef, hAcons, List.takeWhile_cons, if_pos hcase] at hnil
            simp at hnil
        have ha : a = '@' := by simpa using hpa
        -- then the last character of s is '@'
        have hhead : s.reverse.head? = some a := by
          have hApre : A <+: s.reverse := List.takeWhile_prefix _
          obtain ⟨u, hu⟩ := hApre
          rw [← hu, hAcons]
          rfl
        rw [List.head?_reverse] at hhead
        exact h (by rw [hhead, ha])
      have hAne : A ≠ [] := by
        intro hA0
        rw [hA0] at h2
        simp at h2
      -- compute both strip results
      have hgoalA : ('t' :: 'i' :: 'g' :: '.' :: A).takeWhile (· ≠ '@') =
          't' :: 'i' :: 'g' :: '.' :: R := by
        have : ('t' :: 'i' :: 'g' :: '.' :: A) = ['t', 'i', 'g', '.'] ++ A := rfl
        rw [this, takeWhile_append_of_forall (by decide)]
        rfl
      have hat2 : '@' ∈ ('t' :: 'i' :: 'g' :: '.' :: A) := by
        simp only [List.mem_cons]
        right; right; right; right
        exact h2
      have hlhs : stripRef (s ++ ((".git").data)) =
          ((s.reverse.drop (R.length + 1)).reverse, some ('t' :: 'i' :: 'g' :: '.' :: R).reverse) := by
        unfold stripRef
        rw [if_pos hmem, hA, if_pos hat2, hgoalA]
        rw [if_neg (by simp)]
        rw [hrev]
        have hform : ('t' :: 'i' :: 'g' :: '.' :: s.reverse) =
            (['t', 'i', 'g', '.'] : Str) ++ s.reverse := rfl
        have hlen : ('t' :: 'i' :: 'g' :: '.' :: R).length + 1 =
            (['t', 'i', 'g', '.'] : Str).length + (R.length + 1) := by
          simp
          omega
        rw [hform, hlen, List.drop_append]
      have hrhs : stripRef s =
          ((s.reverse.drop (R.length + 1)).reverse, some R.reverse) := by
        unfold stripRef
        rw [if_pos hs, ← hAdef, ← hRdef]
        rw [if_pos h2]
        rw [if_neg (by
          intro hemp
          exact hRne (List.isEmpty_iff.1 hemp))]
      unfold normalize_source
      rw [hlhs, hrhs]
    · -- no ref on either side
      have hnone1 : stripRef s = (s, none) := by
        unfold stripRef
        rw [if_pos hs, if_neg h2]
      have hnone2 : stripRef (s ++ ((".git").data)) = (s ++ ((".git").data), none) := by
        unfold stripRef
        rw [if_pos hmem, hA]
        rw [if_neg (by
          intro hat
          simp only [List.mem_cons] at hat
          rcases hat with h | h | h | h | h
          · exact absurd h (by decide)
          · exact absurd h (by decide)
          · exact absurd h (by decide)
          · exact absurd h (by decide)
          · exact h2 h)]
      unfold normalize_source
      rw [hnone1, hnone2, normalize_url_append_dotgit, trim_rev_append_dotgit]
  · -- no '/' anywhere: strip_ref is the identity on both sides
    have hmem2 : '/' ∉ s ++ ((".git").data) := by
      intro hmem
      rcases List.mem_append.1 hmem with h | h
      · exact hs h
      · exact hgit_slash h
    have hnone1 : stripRef s = (s, none) := by
      unfold stripRef
      rw [if_neg hs]
    have hnone2 : stripRef (s ++ ((".git").data)) = (s ++ ((".git").data), none) := by
      unfold stripRef
      rw [if_neg hmem2]
    unfold normalize_source
    rw [hnone1, hnone2, normalize_url_append_dotgit, trim_rev_append_dotgit]

/-! ## Claim theorems for the source resolver (C6, C7, C10) -/

/-- Claim C6, counterexample: two source strings that differ only by an
explicit `https://` scheme can normalize differently, because prepending the
scheme introduces a `/` that makes a trailing `@...` parse as a ref. So the
claimed invariance does not hold for all strings. -/
theorem normalize_source_scheme_not_universal :
    normalize_source (("host@v1").data) ≠
      normalize_source ((("https://").data) ++ (("host@v1").data)) := by
  decide

/-- Claim C6 (amended): `normalize_source` is invariant under an explicit
`https://` scheme, a trailing `.git`, and an `@ref` suffix, for well-formed
sources: for the scheme case the bare form must carry no scheme/SCP prefix
and contain a `/` or no `@`; for the `.git` case the source must not end in
`@`; for the `@ref` case the base must contain a `/` and carry no ref of its
own, and the ref must be non-empty and free of `/` and `@`. -/
theorem normalize_source_invariances :
    (∀ s : Str, hasSchemeOrScp s = false → ('/' ∈ s ∨ '@' ∉ s) →
      normalize_source ((("https://").data) ++ s) = normalize_source s) ∧
    (∀ s : Str, s.getLast? ≠ some '@' →
      normalize_source (s ++ ((".git").data)) = normalize_source s) ∧
    (∀ s r : Str, '/' ∈ s → (stripRef s).2 = none → r ≠ [] → '/' ∉ r → '@' ∉ r →
      normalize_source (s ++ '@' :: r) = normalize_source s) :=
  ⟨fun _ h1 h2 => normalize_source_scheme_invariant h1 h2,
   fun _ h => normalize_source_dotgit_invariant h,
   fun _ _ h1 h2 h3 h4 h5 => normalize_source_ref_invariant h1 h2 h3 h4 h5⟩

/-- Witness for C6: the three invariances evaluated on
`github.com/org/repo` with ref `v1`. -/
theorem normalize_source_invariances_witness :
    normalize_source ((("https://").data) ++ (("github.com/org/repo").data)) =
        normalize_source (("github.com/org/repo").data) ∧
    normalize_source ((("github.com/org/repo").data) ++ ((".git").data)) =
        normalize_source (("github.com/org/repo").data) ∧
    normalize_source ((("github.com/org/repo").data) ++ '@' :: (("v1").data)) =
        normalize_source (("github.com/org/repo").data) :=
  ⟨normalize_source_invariances.1 _ (by decide) (Or.inl (by decide)),
   normalize_source_invariances.2.1 _ (by decide),
   normalize_source_invariances.2.2 _ _ (by decide) (by decide) (by decide)
     (by decide) (by decide)⟩

/-- Claim C7: `parse_remote` recognizes an `@` as the ref delimiter only
when it occurs after the final `/` of the input: whenever a ref is
extracted, the input splits as `base ++ '@' :: ref` where the ref contains
neither `/` nor `@` (so the delimiter is the last `@`, after the last `/`)
and the base contains the final `/`. Concretely,
`parse_remote "git@host:org/repo@v2.0"` yields url `git@host:org/repo` and
ref `v2.0`, while `parse_remote "git@host:org/repo.git"` yields the url
unchanged and ref `None`. -/
theorem parse_remote_ref_after_last_slash :
    (∀ s r : Str, (parse_remote s).git_ref = some r →
      ∃ b, s = b ++ '@' :: r ∧ '/' ∉ r ∧ '@' ∉ r ∧ '/' ∈ b ∧
        (parse_remote s).url = normalize_url b) ∧
    parse_remote (("git@host:org/repo@v2.0").data) =
      { url := ("git@host:org/repo").data, git_ref := some (("v2.0").data) } ∧
    parse_remote (("git@host:org/repo.git").data) =
      { url := ("git@host:org/repo.git").data, git_ref := none } := by
  refine ⟨?_, by decide, by decide⟩
  intro s r h
  have h2 : (stripRef s).2 = some r := h
  have hsplit : stripRef s = ((stripRef s).1, some r) := by
    rw [Prod.ext_iff]
    exact ⟨rfl, h2⟩
  obtain ⟨hsp, -, hr1, hr2, hb⟩ := stripRef_eq_some hsplit
  exact ⟨(stripRef s).1, hsp, hr1, hr2, hb, rfl⟩

/-- Witness for C7: the general decomposition applied to `a/b@c`. -/
theorem parse_remote_ref_after_last_slash_witness :
    ∃ b, ("a/b@c").data = b ++ '@' :: (("c").data) ∧ '/' ∉ (("c").data) ∧
      '@' ∉ (("c").data) ∧ '/' ∈ b ∧
      (parse_remote (("a/b@c").data)).url = normalize_url b :=
  parse_remote_ref_after_last_slash.1 _ _ (by decide)

/-- Claim C10: `parse_remote` never returns an empty ref; an input ending in
`@` with nothing after it (for example `github.com/org/repo@`) is parsed
with ref `None` and the trailing `@` kept as part of the returned URL. -/
theorem parse_remote_ref_ne_empty :
    (∀ s r : Str, (parse_remote s).git_ref = some r → r ≠ []) ∧
    parse_remote (("github.com/org/repo@").data) =
      { url := ("https://github.com/org/repo@").data, git_ref := none } := by
  refine ⟨?_, by decide⟩
  intro s r h
  have h2 : (stripRef s).2 = some r := h
  have hsplit : stripRef s = ((stripRef s).1, some r) := by
    rw [Prod.ext_iff]
    exact ⟨rfl, h2⟩
  obtain ⟨-, hrne, -, -, -⟩ := stripRef_eq_some hsplit
  exact hrne

/-- Witness for C10: the non-emptiness statement applied to `o/r@v`. -/
theorem parse_remote_ref_ne_empty_witness : (("v").data : Str) ≠ [] :=
  parse_remote_ref_ne_empty.1 (("o/r@v").data) _ (by decide)

/-! ## types.rs -/

/-- `FileScope` (types.rs). -/
inductive FileScope
  | Project
  | Global
deriving DecidableEq, Repr

/-- `FileKind` (types.rs). -/
inductive FileKind
  | Skill
  | Agent
  | Command
deriving DecidableEq, Repr

/-- `FileStrategy` (types.rs); `Copy` is the `#[default]` variant. -/
inductive FileStrategy
  | Copy
  | Link
deriving DecidableEq, Repr

/-- `AgentProvider` (types.rs). -/
inductive AgentProvider
  | ClaudeCode
  | OpenCode
  | Codex
  | Cursor
deriving DecidableEq, Repr

/-- `AgentProvider::all` (types.rs). -/
def AgentProvider.all : List AgentProvider :=
  [.ClaudeCode, .OpenCode, .Codex, .Cursor]

/-- The `fmt::Display` impl of `FileKind` (types.rs): capitalized variant
names. -/
def FileKind.display : FileKind → Str
  | .Skill => ("Skill").data
  | .Agent => ("Agent").data
  | .Command => ("Command").data

/-- The `fmt::Display` impl of `FileStrategy` (types.rs): lowercase. -/
def FileStrategy.display : FileStrategy → Str
  | .Copy => ("copy").data
  | .Link => ("link").data

/-- The derived serde `Serialize` JSON string for `FileKind` (types.rs):
the enum has `#[derive(Serialize, Deserialize, ...)]` and **no**
`#[serde(rename_all = "lowercase")]` attribute (unlike `FileScope`), so
serde uses the variant names verbatim. -/
def FileKind.serdeToJsonString : FileKind → Str
  | .Skill => ("Skill").data
  | .Agent => ("Agent").data
  | .Command => ("Command").data

/-- The derived serde `Deserialize` for `FileKind` (types.rs): accepts
exactly the variant names, since no rename attribute is present. -/
def FileKind.serdeOfJsonString (s : Str) : Option FileKind :=
  if s = ("Skill").data then some .Skill
  else if s = ("Agent").data then some .Agent
  else if s = ("Command").data then some .Command
  else none

/-- The derived serde `Serialize` JSON string for `FileStrategy` (types.rs):
again no `#[serde(rename_all = ...)]` attribute, so variant names are used
verbatim. -/
def FileStrategy.serdeToJsonString : FileStrategy → Str
  | .Copy => ("Copy").data
  | .Link => ("Link").data

/-- The derived serde `Deserialize` for `FileStrategy` (types.rs). -/
def FileStrategy.serdeOfJsonString (s : Str) : Option FileStrategy :=
  if s = ("Copy").data then some .Copy
  else if s = ("Link").data then some .Link
  else none

/-! ## Paths

File-system paths are modelled as lists of components. `PathBuf::join` with
a relative string appends that string's `/`-separated components. -/

/-- A file-system path, as a list of components. -/
abbrev Path := List Str

/-- Split a string on `/` (the component structure `PathBuf::join` gives to
a joined relative string). -/
def splitSlashAux : Str → Str → List Str
  | [], acc => [acc.reverse]
  | c :: rest, acc =>
    if c = '/' then acc.reverse :: splitSlashAux rest []
    else splitSlashAux rest (c :: acc)

def splitSlash (s : Str) : List Str := splitSlashAux s []

/-- `Path::file_name`: the last component, unless it is `..`. -/
def pathFileName (p : Path) : Option Str :=
  match p.getLast? with
  | none => none
  | some n => if n = ("..").data then none else some n

/-- `Path::file_stem` and `Path::extension` of a file name, Rust semantics:
the extension is the part after the final `.`, unless the name has no `.`
or starts with its only `.`. -/
def stemExt (name : Str) : Str × Option Str :=
  let r := name.reverse
  if '.' ∈ r then
    let extRev := r.takeWhile (· ≠ '.')
    let stemRev := r.drop (extRev.length + 1)
    if stemRev = [] then (name, none)
    else (stemRev.reverse, some extRev.reverse)
  else (name, none)

/-- `Path::file_stem().unwrap_or_default()` composed over the last
component, as used by the scanner. -/
def pathFileStemD (p : Path) : Str :=
  match pathFileName p with
  | none => []
  | some n => (stemExt n).1

/-- `Path::extension` of a path. -/
def pathExtension (p : Path) : Option Str :=
  match pathFileName p with
  | none => none
  | some n => (stemExt n).2

/-! ## manifest.rs: `FileMapping` -/

/-- `FileMapping` (manifest.rs): one discovered artifact. -/
structure FileMapping where
  path : Path
  kind : FileKind
  strategy : FileStrategy
deriving DecidableEq, Repr

/-! ## provider.rs -/

/-- `ProviderLayout` (provider.rs). -/
structure ProviderLayout where
  project_base : Str
  global_base : Str
  skills : Option Str
  commands : Option Str
  agents : Option Str

/-- `ProviderLayout::kind_dir` (provider.rs). -/
def ProviderLayout.kind_dir (l : ProviderLayout) : FileKind → Option Str
  | .Skill => l.skills
  | .Command => l.commands
  | .Agent => l.agents

/-- `ProviderLayout::base` (provider.rs). -/
def ProviderLayout.base (l : ProviderLayout) : FileScope → Str
  | .Project => l.project_base
  | .Global => l.global_base

/-- `AgentProvider::layout` (provider.rs): the static layout table. -/
def AgentProvider.layout : AgentProvider → ProviderLayout
  | .ClaudeCode =>
    { project_base := (".claude").data
      global_base := (".claude").data
      skills := some (("skills").data)
      commands := some (("commands").data)
      agents := some (("agents").data) }
  | .OpenCode =>
    { project_base := (".opencode").data
      global_base := (".config/opencode").data
      skills := some (("skills").data)
      commands := some (("commands").data)
      agents := some (("agents").data) }
  | .Codex =>
    { project_base := (".agents").data
      global_base := (".agents").data
      skills := some (("skills").data)
      commands := none
      agents := none }
  | .Cursor =>
    { project_base := (".cursor").data
      global_base := (".cursor").data
      skills := some (("skills").data)
      commands := some (("commands").data)
      agents := some (("agents").data) }

/-- `AgentProvider::supports_kind` (provider.rs). -/
def AgentProvider.supports_kind (p : AgentProvider) (k : FileKind) : Bool :=
  (p.layout.kind_dir k).isSome

/-- `Vec::dedup`: remove consecutive duplicates, keeping the first. -/
def dedupConsecAfter (prev : Str) : List Str → List Str
  | [] => []
  | b :: t => if b = prev then dedupConsecAfter prev t else b :: dedupConsecAfter b t

def dedupConsec : List Str → List Str
  | [] => []
  | a :: t => a :: dedupConsecAfter a t

/-- `AgentProvider::project_bases` (provider.rs): project-scope bases of all
providers, deduplicated. -/
def AgentProvider.project_bases : List Str :=
  dedupConsec (AgentProvider.all.map (fun p => p.layout.project_base))

/-- `AgentProvider::get_target_dir` (provider.rs). `home` models
`dirs::home_dir()`; the error cases are the unsupported kind and a missing
home directory under `Global` scope. -/
def get_target_dir (p : AgentProvider) (scope : FileScope) (kind : FileKind)
    (project_root : Path) (home : Option Path) : Except Str Path :=
  match p.layout.kind_dir kind with
  | none => .error (("does not support this kind of file").data)
  | some kd =>
    match (match scope with
           | .Project => some project_root
           | .Global => home) with
    | none => .error (("could not determine home directory").data)
    | some root => .ok (root ++ splitSlash (p.layout.base scope) ++ splitSlash kd)

/-! ## installer.rs -/

/-- `InstallResult` (installer.rs). The Rust struct renders `source` and
`target` as display strings; they are kept as paths here, and `kind` is the
`Display` rendering of the file kind, as in the source. -/
structure InstallResult where
  provider : AgentProvider
  source : Path
  target : Path
  strategy : FileStrategy
  kind : Str
deriving DecidableEq, Repr

/-- `resolve_target_path` (installer.rs): the target is the target directory
joined with the file name of the relative path. -/
def resolve_target_path (relative_path : Path) (target_dir : Path) :
    Except Str Path :=
  match pathFileName relative_path with
  | none => .error (("file path has no filename").data)
  | some n => .ok (target_dir ++ [n])

/-- The inner provider loop of `install` (installer.rs): providers that do
not support the artifact's kind are skipped; for the others the target path
is computed and a result record emitted. Filesystem effects (the existence
check on the source and the copy/symlink placement) are not modelled. -/
def installProviders (file : FileMapping) (scope : FileScope)
    (project_root : Path) (home : Option Path) :
    List AgentProvider → Except Str (List InstallResult)
  | [] => .ok []
  | p :: rest =>
    if p.supports_kind file.kind then
      match get_target_dir p scope file.kind project_root home with
      | .error e => .error e
      | .ok target_dir =>
        match resolve_target_path file.path target_dir with
        | .error e => .error e
        | .ok target_path =>
          match installProviders file scope project_root home rest with
          | .error e => .error e
          | .ok rs =>
            .ok ({ provider := p, source := file.path, target := target_path,
                   strategy := file.strategy, kind := file.kind.display } :: rs)
    else installProviders file scope project_root home rest

/-- `install` (installer.rs): outer loop over the discovered files. -/
def install (files : List FileMapping) (providers : List AgentProvider)
    (scope : FileScope) (project_root : Path) (home : Option Path) :
    Except Str (List InstallResult) :=
  match files with
  | [] => .ok []
  | f :: rest =>
    match installProviders f scope project_root home providers with
    | .error e => .error e
    | .ok a =>
      match install rest providers scope project_root home with
      | .error e => .error e
      | .ok b => .ok (a ++ b)

/-! ### Placement characterization (C2) -/

theorem FileKind.display_inj {k k' : FileKind} (h : k.display = k'.display) :
    k = k' := by
  cases k <;> cases k' <;> first | rfl | exact absurd h (by decide)

theorem get_target_dir_ok {p : AgentProvider} {scope : FileScope}
    {kind : FileKind} {root : Path} {home : Option Path}
    (hsup : p.supports_kind kind = true) (hh : scope = .Global → home.isSome) :
    ∃ td, get_target_dir p scope kind root home = .ok td := by
  unfold AgentProvider.supports_kind at hsup
  unfold get_target_dir
  rcases hkd : p.layout.kind_dir kind with _ | kd
  · rw [hkd] at hsup
    simp at hsup
  · cases scope
    · exact ⟨_, rfl⟩
    · rcases hhome : home with _ | h
      · rw [hhome] at hh
        simp at hh
      · exact ⟨_, rfl⟩

theorem installProviders_ok {file : FileMapping} {scope : FileScope}
    {root : Path} {home : Option Path}
    (hf : (pathFileName file.path).isSome) (hh : scope = .Global → home.isSome) :
    ∀ provs : List AgentProvider,
    ∃ rs, installProviders file scope root home provs = .ok rs ∧
      (∀ r ∈ rs, ∃ p ∈ provs, ∃ td n,
        p.supports_kind file.kind = true ∧
        get_target_dir p scope file.kind root home = .ok td ∧
        pathFileName file.path = some n ∧
        r = { provider := p, source := file.path, target := td ++ [n],
              strategy := file.strategy, kind := file.kind.display }) ∧
      (∀ p ∈ provs, p.supports_kind file.kind = true →
        ∃ r ∈ rs, r.provider = p ∧ r.source = file.path) := by
  intro provs
  induction provs with
  | nil =>
    refine ⟨[], rfl, ?_, ?_⟩
    · intro r hr; simp at hr
    · intro p hp; simp at hp
  | cons p rest ih =>
    obtain ⟨rs, hok, hsound, hcomplete⟩ := ih
    obtain ⟨n, hn⟩ := Option.isSome_iff_exists.1 hf
    by_cases hsup : p.supports_kind file.kind = true
    · obtain ⟨td, htd⟩ := get_target_dir_ok hsup hh
      refine ⟨{ provider := p, source := file.path, target := td ++ [n],
                strategy := file.strategy, kind := file.kind.display } :: rs, ?_, ?_, ?_⟩
      · unfold installProviders
        rw [if_pos hsup, htd]
        unfold resolve_target_path
        rw [hn, hok]
      · intro r hr
        rcases List.mem_cons.1 hr with hr | hr
        · exact ⟨p, List.mem_cons_self .., td, n, hsup, htd, hn, hr⟩
        · obtain ⟨q, hq, td2, n2, h1, h2, h3, h4⟩ := hsound r hr
          exact ⟨q, List.mem_cons_of_mem _ hq, td2, n2, h1, h2, h3, h4⟩
      · intro q hq hqsup
        rcases List.mem_cons.1 hq with hq | hq
        · exact ⟨_, List.mem_cons_self .., hq ▸ rfl, rfl⟩
        · obtain ⟨r, hr, h1, h2⟩ := hcomplete q hq hqsup
          exact ⟨r, List.mem_cons_of_mem _ hr, h1, h2⟩
    · refine ⟨rs, ?_, ?_, ?_⟩
      · unfold installProviders
        rw [if_neg hsup, hok]
      · intro r hr
        obtain ⟨q, hq, td2, n2, h1, h2, h3, h4⟩ := hsound r hr
        exact ⟨q, List.mem_cons_of_mem _ hq, td2, n2, h1, h2, h3, h4⟩
      · intro q hq hqsup
        rcases List.mem_cons.1 hq with hq | hq
        · exact absurd (hq ▸ hqsup) hsup
        · exact hcomplete q hq hqsup

/-- Claim C2: placement records are produced exactly for the (artifact,
provider) pairs where the provider's layout defines a subdirectory for the
artifact's kind (`supports_kind`), the target path is the layout-derived
target directory joined with the basename of the artifact's relative path,
and a provider that does not support a kind never appears in results carrying
that kind. Hypotheses: every artifact path has a file name, and the home
directory resolves when the scope is `Global`. -/
theorem install_placement_characterization
    (files : List FileMapping) (providers : List AgentProvider)
    (scope : FileScope) (root : Path) (home : Option Path)
    (hf : ∀ f ∈ files, (pathFileName f.path).isSome)
    (hh : scope = .Global → home.isSome) :
    ∃ res, install files providers scope root home = .ok res ∧
      (∀ r ∈ res, ∃ f ∈ files, ∃ p ∈ providers, ∃ td n,
        p.supports_kind f.kind = true ∧
        get_target_dir p scope f.kind root home = .ok td ∧
        pathFileName f.path = some n ∧
        r = { provider := p, source := f.path, target := td ++ [n],
              strategy := f.strategy, kind := f.kind.display }) ∧
      (∀ f ∈ files, ∀ p ∈ providers, p.supports_kind f.kind = true →
        ∃ r ∈ res, r.provider = p ∧ r.source = f.path) ∧
      (∀ r ∈ res, ∀ k : FileKind, r.kind = k.display →
        r.provider.supports_kind k = true) := by
  induction files with
  | nil =>
    refine ⟨[], rfl, ?_, ?_, ?_⟩
    · intro r hr; simp at hr
    · intro f hfmem; simp at hfmem
    · intro r hr; simp at hr
  | cons f rest ih =>
    obtain ⟨res, hok, hsound, hcomplete, hkinds⟩ :=
      ih (fun g hg => hf g (List.mem_cons_of_mem _ hg))
    obtain ⟨rs, hok2, hsound2, hcomplete2⟩ :=
      installProviders_ok (hf f (List.mem_cons_self ..)) hh providers
    refine ⟨rs ++ res, ?_, ?_, ?_, ?_⟩
    · unfold install
      rw [hok2, hok]
    · intro r hr
      rcases List.mem_append.1 hr with hr | hr
      · obtain ⟨p, hp, td, n, h1, h2, h3, h4⟩ := hsound2 r hr
        exact ⟨f, List.mem_cons_self .., p, hp, td, n, h1, h2, h3, h4⟩
      · obtain ⟨g, hg, p, hp, td, n, h1, h2, h3, h4⟩ := hsound r hr
        exact ⟨g, List.mem_cons_of_mem _ hg, p, hp, td, n, h1, h2, h3, h4⟩
    · intro g hg p hp hsup
      rcases List.mem_cons.1 hg with hg | hg
      · obtain ⟨r, hr, h1, h2⟩ := hcomplete2 p hp (hg ▸ hsup)
        refine ⟨r, List.mem_append.2 (Or.inl hr), h1, ?_⟩
        rw [h2, hg]
      · obtain ⟨r, hr, h1, h2⟩ := hcomplete g hg p hp hsup
        exact ⟨r, List.mem_append.2 (Or.inr hr), h1, h2⟩
    · intro r hr k hk
      rcases List.mem_append.1 hr with hr | hr
      · obtain ⟨p, hp, td, n, h1, h2, h3, h4⟩ := hsound2 r hr
        have hkind : f.kind = k := FileKind.display_inj (by rw [← hk, h4])
        have hprov : r.provider = p := by rw [h4]
        rw [hprov, ← hkind]
        exact h1
      · obtain ⟨g, hg, p, hp, td, n, h1, h2, h3, h4⟩ := hsound r hr
        have hkind : g.kind = k := FileKind.display_inj (by rw [← hk, h4])
        have hprov : r.provider = p := by rw [h4]
        rw [hprov, ← hkind]
        exact h1

/-- A concrete command artifact used by the C2 witness. -/
def exampleCommandFile : FileMapping :=
  { path := [("commands").data, ("deploy.md").data],
    kind := .Command, strategy := .Copy }

/-- The concrete provider list used by the C2 witness. -/
def exampleProviders : List AgentProvider := [.Codex, .ClaudeCode]

/-- Witness for C2: one `Command` artifact installed to `[Codex, ClaudeCode]`
at project scope; placement records exist exactly for ClaudeCode. -/
theorem install_placement_characterization_witness :
    (∀ f ∈ [exampleCommandFile], (pathFileName f.path).isSome) ∧
    ∃ res,
      install [exampleCommandFile] exampleProviders .Project
          [("proj").data] none = .ok res ∧
      (∀ r ∈ res, ∃ f ∈ [exampleCommandFile], ∃ p ∈ exampleProviders, ∃ td n,
        p.supports_kind f.kind = true ∧
        get_target_dir p .Project f.kind [("proj").data] none = .ok td ∧
        pathFileName f.path = some n ∧
        r = { provider := p, source := f.path, target := td ++ [n],
              strategy := f.strategy, kind := f.kind.display }) ∧
      (∀ f ∈ [exampleCommandFile], ∀ p ∈ exampleProviders,
        p.supports_kind f.kind = true →
        ∃ r ∈ res, r.provider = p ∧ r.source = f.path) ∧
      (∀ r ∈ res, ∀ k : FileKind, r.kind = k.display →
        r.provider.supports_kind k = true) :=
  ⟨by decide,
   install_placement_characterization _ _ _ _ _ (by decide) (by simp)⟩

/-! ## commands.rs: strategy precedence (C3) -/

/-- The strategy-application loop of `install_dependency` (commands.rs):
a dependency-level strategy replaces an artifact's strategy only when the
artifact still carries the scan default `Copy`; a CLI-level override is then
applied unconditionally. -/
def install_dependency_strategies (dep_strategy strategy_override : Option FileStrategy)
    (files : List FileMapping) : List FileMapping :=
  files.map (fun file =>
    let file1 :=
      match dep_strategy with
      | some strategy =>
        if file.strategy = .Copy then { file with strategy := strategy } else file
      | none => file
    match strategy_override with
    | some strategy => { file1 with strategy := strategy }
    | none => file1)

/-- Claim C3: for an artifact carrying the scan default `Copy`, the
effective strategy is the CLI override when given, else the dependency's
strategy when given, else `Copy`; in particular scan `Copy` + dependency
`Link` + CLI `Copy` installs as `Copy`. -/
theorem strategy_precedence :
    (∀ (dep cli : Option FileStrategy) (f : FileMapping), f.strategy = .Copy →
      install_dependency_strategies dep cli [f] =
        [{ f with strategy := cli.getD (dep.getD .Copy) }]) ∧
    install_dependency_strategies (some .Link) (some .Copy) [exampleCommandFile] =
      [exampleCommandFile] := by
  constructor
  · intro dep cli f hcopy
    unfold install_dependency_strategies
    cases dep <;> cases cli <;> simp only [List.map, Option.getD] <;>
      first
        | (rw [if_pos hcopy])
        | skip
    all_goals (congr 1; cases f; simp_all)
  · decide

/-- Witness for C3: the general precedence rule evaluated at dependency
`Link`, CLI `Copy`, on a `Copy` artifact. -/
theorem strategy_precedence_witness :
    install_dependency_strategies (some .Link) (some .Copy) [exampleCommandFile] =
      [{ exampleCommandFile with
          strategy := (some FileStrategy.Copy).getD
            ((some FileStrategy.Link).getD .Copy) }] :=
  strategy_precedence.1 (some .Link) (some .Copy) exampleCommandFile (by decide)

/-! ## scanner.rs

The file system is modelled as a finite tree; `fs::read_dir` yields the
children of a directory in list order. Real directories have pairwise
distinct entry names; the well-formedness predicate `wfList` captures
this where a claim needs it. -/

/-- A file-system entry: a file or a directory with its children. -/
inductive FsTree where
  | file (name : Str)
  | dir (name : Str) (entries : List FsTree)

/-- The name of an entry. -/
def FsTree.name : FsTree → Str
  | .file n => n
  | .dir n _ => n

/-- `entry_path.join("SKILL.md").is_file()`: the directory has a file named
`SKILL.md` at its top level. -/
def hasSkillMd (entries : List FsTree) : Bool :=
  entries.any (fun e =>
    match e with
    | .file n => n = ("SKILL.md").data
    | .dir _ _ => false)

mutual
/-- One iteration of the entry loop of `scan_kind_dir` (scanner.rs).
For `Skill`: a directory containing `SKILL.md` is recorded and not
descended; a directory without one is descended; files are skipped.
For `Command`/`Agent`: a file with extension `md` is recorded; any other
entry falls through to the recursive `scan_kind_dir` call, which fails on a
file (`fs::read_dir` on a non-directory errors). -/
def scanEntry (kind : FileKind) (relDir : Path) : FsTree → Except Str (List FileMapping)
  | .file n =>
    match kind with
    | .Skill => .ok []
    | _ =>
      if (stemExt n).2 = some (("md").data) then
        .ok [{ path := relDir ++ [n], kind := kind, strategy := .Copy }]
      else
        .error (("cannot read directory").data)
  | .dir n entries =>
    match kind with
    | .Skill =>
      if hasSkillMd entries then
        .ok [{ path := relDir ++ [n], kind := .Skill, strategy := .Copy }]
      else
        scanList .Skill (relDir ++ [n]) entries
    | _ => scanList kind (relDir ++ [n]) entries

/-- `scan_kind_dir` (scanner.rs), as a fold over the directory's entries in
order; an error in any entry aborts the scan. -/
def scanList (kind : FileKind) (relDir : Path) : List FsTree → Except Str (List FileMapping)
  | [] => .ok []
  | e :: rest =>
    match scanEntry kind relDir e with
    | .error m => .error m
    | .ok here =>
      match scanList kind relDir rest with
      | .error m => .error m
      | .ok there => .ok (here ++ there)
end

/-- Look up the first directory child with the given name
(`path.join(name).is_dir()` + `read_dir`): files with the name do not
match. -/
def findDir (name : Str) : List FsTree → Option (List FsTree)
  | [] => none
  | .file _ :: rest => findDir name rest
  | .dir n c :: rest => if n = name then some c else findDir name rest

/-- `KIND_DIRS` (scanner.rs). -/
def KIND_DIRS : List (Str × FileKind) :=
  [(("skills").data, .Skill), (("commands").data, .Command), (("agents").data, .Agent)]

/-- `scan_kind_dirs` (scanner.rs): for each kind-directory name under a base
path, scan it when it exists. `base` is the relative path of the directory
whose children are `entries`. -/
def scanKindsIn (base : Path) (entries : List FsTree) :
    List (Str × FileKind) → Except Str (List FileMapping)
  | [] => .ok []
  | (kname, kind) :: rest =>
    match (match findDir kname entries with
           | some c => scanList kind (base ++ [kname]) c
           | none => .ok []) with
    | .error m => .error m
    | .ok here =>
      match scanKindsIn base entries rest with
      | .error m => .error m
      | .ok there => .ok (here ++ there)

/-- The provider-prefix loop of `scan_default_convention` (scanner.rs). -/
def scanPrefixes (root : List FsTree) : List Str → Except Str (List FileMapping)
  | [] => .ok []
  | b :: rest =>
    match (match findDir b root with
           | some c => scanKindsIn [b] c KIND_DIRS
           | none => .ok []) with
    | .error m => .error m
    | .ok here =>
      match scanPrefixes root rest with
      | .error m => .error m
      | .ok there => .ok (here ++ there)

/-- `scan_default_convention` (scanner.rs): provider-prefixed directories
first, then the bare kind directories at the root. -/
def scan_default_convention (root : List FsTree) : Except Str (List FileMapping) :=
  match scanPrefixes root AgentProvider.project_bases with
  | .error m => .error m
  | .ok a =>
    match scanKindsIn [] root KIND_DIRS with
    | .error m => .error m
    | .ok b => .ok (a ++ b)

/-- The dedup key of `deduplicate` (scanner.rs):
`format!("{}:{}", m.kind, stem)`. -/
def dedupKey (m : FileMapping) : Str :=
  m.kind.display ++ ':' :: pathFileStemD m.path

/-- The `retain` loop of `deduplicate` (scanner.rs): keep a mapping iff its
key was not seen before. -/
def dedupAux (seen : List Str) : List FileMapping → List FileMapping
  | [] => []
  | m :: rest =>
    if dedupKey m ∈ seen then dedupAux seen rest
    else m :: dedupAux (dedupKey m :: seen) rest

/-- `deduplicate` (scanner.rs). -/
def deduplicate (mappings : List FileMapping) : List FileMapping :=
  dedupAux [] mappings

/-- `scan_agent_files` (scanner.rs) in the default-convention case
(`custom_paths = None`): scan, then deduplicate. -/
def scan_agent_files (root : List FsTree) : Except Str (List FileMapping) :=
  match scan_default_convention root with
  | .error m => .error m
  | .ok mappings => .ok (deduplicate mappings)

/-- `filter_by_pick` (scanner.rs): one pick token against one mapping.
`split_once('/')` splits the token at its first `/` into
`(p.takeWhile (· ≠ '/'), (p.dropWhile (· ≠ '/')).tail)`. -/
def pickMatches (m : FileMapping) (p : Str) : Bool :=
  if '/' ∈ p then
    (if p.takeWhile (· ≠ '/') = ("skills").data then m.kind = FileKind.Skill
     else if p.takeWhile (· ≠ '/') = ("commands").data then m.kind = FileKind.Command
     else if p.takeWhile (· ≠ '/') = ("agents").data then m.kind = FileKind.Agent
     else false) &&
    pathFileStemD m.path = (p.dropWhile (· ≠ '/')).tail
  else pathFileStemD m.path = p

/-- `filter_by_pick` (scanner.rs). -/
def filter_by_pick (mappings : List FileMapping) (pick : List Str) : List FileMapping :=
  mappings.filter (fun m => pick.any (fun p => pickMatches m p))

/-! ### Well-formed file trees and path resolution (C4 apparatus)

A real directory never contains two entries with the same name; `wfDirList`
captures this, recursively. `resolvePath` looks a relative path up in a
forest, mirroring what the recorded `relative_path` of an artifact denotes
on disk. -/

/-- No duplicate names in a list. -/
def nodupNames : List Str → Bool
  | [] => true
  | n :: t => if n ∈ t then false else nodupNames t

mutual
/-- Every directory in the tree has pairwise distinct child names. -/
def wfTree : FsTree → Bool
  | .file _ => true
  | .dir _ entries => nodupNames (entries.map FsTree.name) && wfForest entries

def wfForest : List FsTree → Bool
  | [] => true
  | e :: rest => wfTree e && wfForest rest
end

/-- Well-formedness of a directory's child list: distinct names here and in
every subdirectory. -/
def wfDirList (l : List FsTree) : Bool :=
  nodupNames (l.map FsTree.name) && wfForest l

/-- First entry (file or directory) with a given name. -/
def findEntry (name : Str) : List FsTree → Option FsTree
  | [] => none
  | e :: rest => if e.name = name then some e else findEntry name rest

/-- Resolve a relative path (list of components) against a forest. -/
def resolvePath (entries : List FsTree) : List Str → Option FsTree
  | [] => none
  | n :: rest =>
    match findEntry n entries with
    | none => none
    | some e =>
      match rest with
      | [] => some e
      | _ :: _ =>
        match e with
        | .dir _ c => resolvePath c rest
        | .file _ => none

/-- The artifact invariant of a scanned relative path, per kind: a `Skill`
path names a directory with a `SKILL.md` at its top level; a `Command` or
`Agent` path names a file with extension `md`. -/
def resolveOK (kind : FileKind) (entries : List FsTree) (p : List Str) : Prop :=
  match kind with
  | .Skill => ∃ nm c, resolvePath entries p = some (.dir nm c) ∧ hasSkillMd c = true
  | _ => ∃ nm, resolvePath entries p = some (.file nm) ∧
      (stemExt nm).2 = some (("md").data)

/-- No artifact lies strictly beneath a `Skill` artifact's directory. -/
def PrefixFree (ms : List FileMapping) : Prop :=
  ∀ m ∈ ms, ∀ m2 ∈ ms, m2.kind = .Skill → m2.path <+: m.path → m2.path = m.path

theorem resolveOK_not_skill {kind : FileKind} (h : kind ≠ .Skill)
    {entries : List FsTree} {p : List Str} :
    resolveOK kind entries p ↔
      ∃ nm, resolvePath entries p = some (.file nm) ∧
        (stemExt nm).2 = some (("md").data) := by
  cases kind
  · exact absurd rfl h
  · exact Iff.rfl
  · exact Iff.rfl

theorem PrefixFree_nil : PrefixFree [] := by
  intro m hm
  simp at hm

theorem PrefixFree_singleton (m : FileMapping) : PrefixFree [m] := by
  intro a ha b hb
  rw [List.mem_singleton] at ha hb
  intro _ _
  rw [ha, hb]

theorem resolvePath_cons_head (e : FsTree) (rest : List FsTree) (s : List Str) :
    resolvePath (e :: rest) (e.name :: s) = resolvePath [e] (e.name :: s) := by
  unfold resolvePath findEntry
  rw [if_pos rfl, if_pos rfl]

theorem resolvePath_cons_ne {e : FsTree} {n : Str} (h : e.name ≠ n)
    (rest : List FsTree) (s : List Str) :
    resolvePath (e :: rest) (n :: s) = resolvePath rest (n :: s) := by
  have hf : findEntry n (e :: rest) = findEntry n rest := by
    have : findEntry n (e :: rest) =
        if e.name = n then some e else findEntry n rest := rfl
    rw [this, if_neg h]
  unfold resolvePath
  rw [hf]

theorem resolvePath_dir_cons {entries : List FsTree} {kname : Str}
    {c : List FsTree} (h : findEntry kname entries = some (.dir kname c))
    (n : Str) (s : List Str) :
    resolvePath entries (kname :: n :: s) = resolvePath c (n :: s) := by
  unfold resolvePath
  rw [h]
  rfl

theorem cons_isPre_cons {a b : Str} {u v : List Str} (h : a :: u <+: b :: v) :
    a = b ∧ u <+: v := by
  obtain ⟨t, ht⟩ := h
  rw [List.cons_append] at ht
  exact ⟨(List.cons.injEq .. ▸ ht).1, t, (List.cons.injEq .. ▸ ht).2⟩

theorem resolveOK_congr {kind : FileKind} {l l2 : List FsTree}
    {p p2 : List Str} (h : resolvePath l p = resolvePath l2 p2) :
    resolveOK kind l p ↔ resolveOK kind l2 p2 := by
  cases kind <;> simp [resolveOK, h]

theorem findEntry_single_self (e : FsTree) : findEntry e.name [e] = some e := by
  have h : findEntry e.name [e] =
      if e.name = e.name then some e else findEntry e.name [] := rfl
  rw [h, if_pos rfl]

theorem resolvePath_single_self (e : FsTree) : resolvePath [e] [e.name] = some e := by
  unfold resolvePath
  rw [findEntry_single_self]

theorem resolvePath_single_dir (n : Str) (c : List FsTree) (s0 : Str) (s : List Str) :
    resolvePath [FsTree.dir n c] (n :: s0 :: s) = resolvePath c (s0 :: s) := by
  have hf : findEntry n [FsTree.dir n c] = some (FsTree.dir n c) :=
    findEntry_single_self (FsTree.dir n c)
  exact resolvePath_dir_cons hf s0 s

theorem wfTree_dir_eq (n : Str) (entries : List FsTree) :
    wfTree (.dir n entries) = wfDirList entries := rfl

theorem wfDirList_cons {e : FsTree} {rest : List FsTree}
    (h : wfDirList (e :: rest) = true) :
    wfTree e = true ∧ wfDirList rest = true ∧ e.name ∉ rest.map FsTree.name := by
  unfold wfDirList at h
  rw [Bool.and_eq_true] at h
  obtain ⟨hnd, hwf⟩ := h
  have hmap : (e :: rest).map FsTree.name = e.name :: rest.map FsTree.name := rfl
  rw [hmap] at hnd
  have hnd2 : (if e.name ∈ rest.map FsTree.name then false
      else nodupNames (rest.map FsTree.name)) = true := hnd
  by_cases hmem : e.name ∈ rest.map FsTree.name
  · rw [if_pos hmem] at hnd2
    exact absurd hnd2 (by simp)
  · rw [if_neg hmem] at hnd2
    have hwf2 : (wfTree e && wfForest rest) = true := hwf
    rw [Bool.and_eq_true] at hwf2
    refine ⟨hwf2.1, ?_, hmem⟩
    unfold wfDirList
    rw [Bool.and_eq_true]
    exact ⟨hnd2, hwf2.2⟩

/-- The joint scan invariant: every mapping from `scan_kind_dir` over a
well-formed directory carries the scanned kind and strategy `Copy`, its path
extends the scanned directory's path by a child name, its path resolves to
an artifact of the right shape, and no mapping lies strictly beneath a
recorded `Skill` directory. -/
theorem scanList_inv :
    ∀ (kind : FileKind) (relDir : Path) (l : List FsTree) (ms : List FileMapping),
      wfDirList l = true → scanList kind relDir l = .ok ms →
      ((∀ m ∈ ms, m.kind = kind ∧ m.strategy = .Copy ∧
        ∃ n s, n ∈ l.map FsTree.name ∧ m.path = relDir ++ n :: s ∧
          resolveOK kind l (n :: s)) ∧ PrefixFree ms) := by
  refine fun kind relDir l ms hwf hok =>
    scanList.induct
      (fun kind relDir e => ∀ ms, wfTree e = true →
        scanEntry kind relDir e = .ok ms →
        ((∀ m ∈ ms, m.kind = kind ∧ m.strategy = .Copy ∧
          ∃ s, m.path = relDir ++ e.name :: s ∧ resolveOK kind [e] (e.name :: s)) ∧
         PrefixFree ms))
      (fun kind relDir l => ∀ ms, wfDirList l = true →
        scanList kind relDir l = .ok ms →
        ((∀ m ∈ ms, m.kind = kind ∧ m.strategy = .Copy ∧
          ∃ n s, n ∈ l.map FsTree.name ∧ m.path = relDir ++ n :: s ∧
            resolveOK kind l (n :: s)) ∧ PrefixFree ms))
      ?_ ?_ ?_ ?_ ?_ ?_ ?_ ?_ ?_ ?_ kind relDir l ms hwf hok
  · -- Skill scan skips plain files
    intro rel n ms _ hok
    have hok2 : (Except.ok [] : Except Str (List FileMapping)) = .ok ms := hok
    obtain rfl : ([] : List FileMapping) = ms := by injection hok2
    exact ⟨by intro m hm; simp at hm, PrefixFree_nil⟩
  · -- Command/Agent scan records an `.md` file
    intro kind rel n hmd hk ms _ hok
    cases kind
    case Skill => exact absurd rfl hk
    all_goals
      first
      | (have hok2 : (if (stemExt n).2 = some (("md").data) then
            (Except.ok [(⟨rel ++ [n], .Agent, .Copy⟩ : FileMapping)] :
              Except Str (List FileMapping))
            else .error (("cannot read directory").data)) = .ok ms := hok
         rw [if_pos hmd] at hok2
         obtain rfl : [(⟨rel ++ [n], .Agent, .Copy⟩ : FileMapping)] = ms := by
           injection hok2
         refine ⟨?_, PrefixFree_singleton _⟩
         intro m hm
         rw [List.mem_singleton] at hm
         subst hm
         refine ⟨rfl, rfl, [], rfl, ?_⟩
         exact ⟨n, resolvePath_single_self (.file n), hmd⟩)
      | (have hok2 : (if (stemExt n).2 = some (("md").data) then
            (Except.ok [(⟨rel ++ [n], .Command, .Copy⟩ : FileMapping)] :
              Except Str (List FileMapping))
            else .error (("cannot read directory").data)) = .ok ms := hok
         rw [if_pos hmd] at hok2
         obtain rfl : [(⟨rel ++ [n], .Command, .Copy⟩ : FileMapping)] = ms := by
           injection hok2
         refine ⟨?_, PrefixFree_singleton _⟩
         intro m hm
         rw [List.mem_singleton] at hm
         subst hm
         refine ⟨rfl, rfl, [], rfl, ?_⟩
         exact ⟨n, resolvePath_single_self (.file n), hmd⟩)
  · -- Command/Agent scan fails on a non-`.md` file (read_dir on a file)
    intro kind rel n hmd hk ms _ hok
    cases kind
    case Skill => exact absurd rfl hk
    all_goals
      first
      | (have hok2 : (if (stemExt n).2 = some (("md").data) then
            (Except.ok [(⟨rel ++ [n], .Agent, .Copy⟩ : FileMapping)] :
              Except Str (List FileMapping))
            else .error (("cannot read directory").data)) = .ok ms := hok
         rw [if_neg hmd] at hok2
         exact Except.noConfusion hok2)
      | (have hok2 : (if (stemExt n).2 = some (("md").data) then
            (Except.ok [(⟨rel ++ [n], .Command, .Copy⟩ : FileMapping)] :
              Except Str (List FileMapping))
            else .error (("cannot read directory").data)) = .ok ms := hok
         rw [if_neg hmd] at hok2
         exact Except.noConfusion hok2)
  · -- Skill scan records a directory with SKILL.md and stops
    intro rel n entries hsk ms _ hok
    have hok2 : (if hasSkillMd entries = true then
        (Except.ok [(⟨rel ++ [n], .Skill, .Copy⟩ : FileMapping)] :
          Except Str (List FileMapping))
        else scanList .Skill (rel ++ [n]) entries) = .ok ms := hok
    rw [if_pos hsk] at hok2
    obtain rfl : [(⟨rel ++ [n], .Skill, .Copy⟩ : FileMapping)] = ms := by
      injection hok2
    refine ⟨?_, PrefixFree_singleton _⟩
    intro m hm
    rw [List.mem_singleton] at hm
    subst hm
    refine ⟨rfl, rfl, [], rfl, ?_⟩
    exact ⟨n, entries, resolvePath_single_self (.dir n entries), hsk⟩
  · -- Skill scan descends into a directory without SKILL.md
    intro rel n entries hsk ih ms hwfe hok
    have hok2 : (if hasSkillMd entries = true then
        (Except.ok [(⟨rel ++ [n], .Skill, .Copy⟩ : FileMapping)] :
          Except Str (List FileMapping))
        else scanList .Skill (rel ++ [n]) entries) = .ok ms := hok
    rw [if_neg hsk] at hok2
    have hwf2 : wfDirList entries = true := hwfe
    obtain ⟨hmem, hpf⟩ := ih ms hwf2 hok2
    refine ⟨?_, hpf⟩
    intro m hm
    obtain ⟨h1, h2, n2, s, hn2, hpath, hres⟩ := hmem m hm
    refine ⟨h1, h2, n2 :: s, ?_, ?_⟩
    · rw [hpath, List.append_assoc]
      rfl
    · show resolveOK _ [FsTree.dir n entries] (n :: n2 :: s)
      rw [resolveOK_congr (resolvePath_single_dir n entries n2 s)]
      exact hres
  · -- Command/Agent scan descends into any directory
    intro kind rel n entries hk ih ms hwfe hok
    have hwf2 : wfDirList entries = true := hwfe
    cases kind
    case Skill => exact absurd rfl hk
    all_goals (
      have hok2 := hok
      obtain ⟨hmem, hpf⟩ := ih ms hwf2 hok2
      refine ⟨?_, hpf⟩
      intro m hm
      obtain ⟨h1, h2, n2, s, hn2, hpath, hres⟩ := hmem m hm
      refine ⟨h1, h2, n2 :: s, ?_, ?_⟩
      · rw [hpath, List.append_assoc]
        rfl
      · show resolveOK _ [FsTree.dir n entries] (n :: n2 :: s)
        rw [resolveOK_congr (resolvePath_single_dir n entries n2 s)]
        exact hres)
  · -- empty directory
    intro kind rel ms _ hok
    have hok2 : (Except.ok [] : Except Str (List FileMapping)) = .ok ms := hok
    obtain rfl : ([] : List FileMapping) = ms := by injection hok2
    exact ⟨by intro m hm; simp at hm, PrefixFree_nil⟩
  · -- entry scan errored: no ok result
    intro kind rel e rest m herr _ ms _ hok
    unfold scanList at hok
    rw [herr] at hok
    exact Except.noConfusion hok
  · -- rest scan errored: no ok result
    intro kind rel e rest here hentry m hresterr _ _ ms _ hok
    unfold scanList at hok
    rw [hentry, hresterr] at hok
    exact Except.noConfusion hok
  · -- both ok: combine the entry's results with the rest's
    intro kind rel e rest here hentry there hrest ih1 ih2 ms hwfc hok
    unfold scanList at hok
    rw [hentry, hrest] at hok
    obtain rfl : here ++ there = ms := by injection hok
    obtain ⟨hwfe, hwfr, hnotmem⟩ := wfDirList_cons hwfc
    obtain ⟨hmem1, hpf1⟩ := ih1 here hwfe hentry
    obtain ⟨hmem2, hpf2⟩ := ih2 there hwfr hrest
    have hpaths1 : ∀ m ∈ here, ∃ s, m.path = rel ++ e.name :: s := by
      intro m hm
      obtain ⟨-, -, s, hpath, -⟩ := hmem1 m hm
      exact ⟨s, hpath⟩
    have hpaths2 : ∀ m ∈ there, ∃ n2 s, n2 ∈ rest.map FsTree.name ∧
        m.path = rel ++ n2 :: s := by
      intro m hm
      obtain ⟨-, -, n2, s, hn2, hpath, -⟩ := hmem2 m hm
      exact ⟨n2, s, hn2, hpath⟩
    constructor
    · intro m hm
      rcases List.mem_append.1 hm with hm | hm
      · obtain ⟨h1, h2, s, hpath, hres⟩ := hmem1 m hm
        refine ⟨h1, h2, e.name, s, by simp, hpath, ?_⟩
        rw [resolveOK_congr (resolvePath_cons_head e rest s)]
        exact hres
      · obtain ⟨h1, h2, n2, s, hn2, hpath, hres⟩ := hmem2 m hm
        have hne : e.name ≠ n2 := by
          intro heq
          exact hnotmem (heq ▸ hn2)
        refine ⟨h1, h2, n2, s, by simp [hn2], hpath, ?_⟩
        rw [resolveOK_congr (resolvePath_cons_ne hne rest s)]
        exact hres
    · intro m hm m2 hm2 hskill hpre
      rcases List.mem_append.1 hm with hm | hm <;>
        rcases List.mem_append.1 hm2 with hm2 | hm2
      · exact hpf1 m hm m2 hm2 hskill hpre
      · -- m ∈ here, m2 ∈ there: heads differ
        obtain ⟨s, hp1⟩ := hpaths1 m hm
        obtain ⟨n2, s2, hn2, hp2⟩ := hpaths2 m2 hm2
        rw [hp1, hp2] at hpre
        have := (cons_isPre_cons ((List.prefix_append_right_inj rel).1 hpre)).1
        exact absurd (this ▸ hn2) hnotmem
      · -- m2 ∈ here, m ∈ there: heads differ
        obtain ⟨s, hp1⟩ := hpaths1 m2 hm2
        obtain ⟨n2, s2, hn2, hp2⟩ := hpaths2 m hm
        rw [hp1, hp2] at hpre
        have := (cons_isPre_cons ((List.prefix_append_right_inj rel).1 hpre)).1
        exact absurd (this.symm ▸ hn2) hnotmem
      · exact hpf2 m hm m2 hm2 hskill hpre

theorem nodupNames_cons {x : Str} {t : List Str} (h : nodupNames (x :: t) = true) :
    x ∉ t ∧ nodupNames t = true := by
  have h2 : (if x ∈ t then false else nodupNames t) = true := h
  by_cases hmem : x ∈ t
  · rw [if_pos hmem] at h2
    exact absurd h2 (by simp)
  · rw [if_neg hmem] at h2
    exact ⟨hmem, h2⟩

theorem findDir_mem_names {n : Str} :
    ∀ {l : List FsTree} {c : List FsTree}, findDir n l = some c →
      n ∈ l.map FsTree.name := by
  intro l
  induction l with
  | nil => intro c h; exact Option.noConfusion h
  | cons e rest ih =>
    intro c h
    cases e with
    | file fn =>
      have h2 : findDir n rest = some c := h
      exact List.mem_cons_of_mem _ (ih h2)
    | dir dn c2 =>
      have h2 : (if dn = n then some c2 else findDir n rest) = some c := h
      by_cases hdn : dn = n
      · rw [← hdn]
        exact List.mem_cons_self ..
      · rw [if_neg hdn] at h2
        exact List.mem_cons_of_mem _ (ih h2)

theorem findDir_findEntry {n : Str} :
    ∀ {l : List FsTree} {c : List FsTree},
      nodupNames (l.map FsTree.name) = true → findDir n l = some c →
      findEntry n l = some (.dir n c) := by
  intro l
  induction l with
  | nil => intro c _ h; exact Option.noConfusion h
  | cons e rest ih =>
    intro c hnd h
    have hmap : (e :: rest).map FsTree.name = e.name :: rest.map FsTree.name := rfl
    rw [hmap] at hnd
    obtain ⟨hnotmem, hndrest⟩ := nodupNames_cons hnd
    cases e with
    | file fn =>
      have h2 : findDir n rest = some c := h
      have hne : FsTree.name (.file fn) ≠ n := by
        intro heq
        exact hnotmem (heq ▸ findDir_mem_names h2)
      have hfe : findEntry n (FsTree.file fn :: rest) =
          if (FsTree.file fn).name = n then some (.file fn) else findEntry n rest := rfl
      rw [hfe, if_neg hne]
      exact ih hndrest h2
    | dir dn c2 =>
      have h2 : (if dn = n then some c2 else findDir n rest) = some c := h
      have hfe : findEntry n (FsTree.dir dn c2 :: rest) =
          if (FsTree.dir dn c2).name = n then some (.dir dn c2)
          else findEntry n rest := rfl
      by_cases hdn : dn = n
      · subst hdn
        rw [if_pos rfl] at h2
        obtain rfl : c2 = c := by injection h2
        rw [hfe, if_pos (show (FsTree.dir dn c2).name = dn from rfl)]
      · rw [if_neg hdn] at h2
        have hne : FsTree.name (.dir dn c2) ≠ n := hdn
        rw [hfe, if_neg hne]
        exact ih hndrest h2

theorem findDir_wfDirList {n : Str} :
    ∀ {l : List FsTree} {c : List FsTree},
      wfDirList l = true → findDir n l = some c → wfDirList c = true := by
  intro l
  induction l with
  | nil => intro c _ h; exact Option.noConfusion h
  | cons e rest ih =>
    intro c hwf h
    obtain ⟨hwfe, hwfr, -⟩ := wfDirList_cons hwf
    cases e with
    | file fn =>
      have h2 : findDir n rest = some c := h
      exact ih hwfr h2
    | dir dn c2 =>
      have h2 : (if dn = n then some c2 else findDir n rest) = some c := h
      by_cases hdn : dn = n
      · rw [if_pos hdn] at h2
        obtain rfl : c2 = c := by injection h2
        exact hwfe
      · rw [if_neg hdn] at h2
        exact ih hwfr h2

/-- Scan invariant lifted through `scan_kind_dirs`: paths gain the kind
directory's name, kinds come from the kind table, resolution holds against
the base directory's children. -/
theorem scanKindsIn_inv :
    ∀ (kinds : List (Str × FileKind)) (base : Path) (entries : List FsTree)
      (ms : List FileMapping),
      wfDirList entries = true → nodupNames (kinds.map Prod.fst) = true →
      scanKindsIn base entries kinds = .ok ms →
      ((∀ m ∈ ms, m.strategy = .Copy ∧ ∃ kname s, (kname, m.kind) ∈ kinds ∧
        s ≠ [] ∧ m.path = base ++ kname :: s ∧
        resolveOK m.kind entries (kname :: s)) ∧
       PrefixFree ms) := by
  intro kinds
  induction kinds with
  | nil =>
    intro base entries ms _ _ hok
    have hok2 : (Except.ok [] : Except Str (List FileMapping)) = .ok ms := hok
    obtain rfl : ([] : List FileMapping) = ms := by injection hok2
    exact ⟨by intro m hm; simp at hm, PrefixFree_nil⟩
  | cons kk restk ih =>
    intro base entries ms hwf hnd hok
    obtain ⟨kname, kind⟩ := kk
    have hndfst : nodupNames (kname :: restk.map Prod.fst) = true := hnd
    obtain ⟨hknot, hndrest⟩ := nodupNames_cons hndfst
    unfold scanKindsIn at hok
    rcases hfd : findDir kname entries with _ | c <;> rw [hfd] at hok
    · -- kind directory absent: nothing from this kind
      rcases hrest : scanKindsIn base entries restk with m | there <;>
        rw [hrest] at hok
      · exact Except.noConfusion hok
      · obtain rfl : [] ++ there = ms := by injection hok
        obtain ⟨hmem, hpf⟩ := ih base entries there hwf hndrest hrest
        constructor
        · intro m hm
          rw [List.nil_append] at hm
          obtain ⟨h1, kname2, s, hk2, hs, hpath, hres⟩ := hmem m hm
          exact ⟨h1, kname2, s, List.mem_cons_of_mem _ hk2, hs, hpath, hres⟩
        · rw [List.nil_append]
          exact hpf
    · have hok2 : (match scanList kind (base ++ [kname]) c with
          | .error m => (.error m : Except Str (List FileMapping))
          | .ok here =>
            match scanKindsIn base entries restk with
            | .error m => .error m
            | .ok there => .ok (here ++ there)) = .ok ms := hok
      rcases hsc : scanList kind (base ++ [kname]) c with m | here <;>
        rw [hsc] at hok2
      · exact Except.noConfusion hok2
      · rcases hrest : scanKindsIn base entries restk with m | there <;>
          rw [hrest] at hok2
        · exact Except.noConfusion hok2
        · obtain rfl : here ++ there = ms := by injection hok2
          have hwfc : wfDirList c = true := findDir_wfDirList hwf hfd
          have hfe : findEntry kname entries = some (.dir kname c) := by
            have hnde : nodupNames (entries.map FsTree.name) = true := by
              have h2 : (nodupNames (entries.map FsTree.name) &&
                  wfForest entries) = true := hwf
              exact (Bool.and_eq_true .. ▸ h2).1
            exact findDir_findEntry hnde hfd
          obtain ⟨hmem1, hpf1⟩ := scanList_inv kind (base ++ [kname]) c here hwfc hsc
          obtain ⟨hmem2, hpf2⟩ := ih base entries there hwf hndrest hrest
          have hpaths1 : ∀ m ∈ here, ∃ s, s ≠ [] ∧ m.path = base ++ kname :: s := by
            intro m hm
            obtain ⟨-, -, n2, s, -, hpath, -⟩ := hmem1 m hm
            refine ⟨n2 :: s, by simp, ?_⟩
            rw [hpath, List.append_assoc]
            rfl
          have hpaths2 : ∀ m ∈ there, ∃ kname2 s, (kname2, m.kind) ∈ restk ∧
              m.path = base ++ kname2 :: s := by
            intro m hm
            obtain ⟨-, kname2, s, hk2, -, hpath, -⟩ := hmem2 m hm
            exact ⟨kname2, s, hk2, hpath⟩
          constructor
          · intro m hm
            rcases List.mem_append.1 hm with hm | hm
            · obtain ⟨hkind, h2, n2, s, hn2, hpath, hres⟩ := hmem1 m hm
              refine ⟨h2, kname, n2 :: s, ?_, by simp, ?_, ?_⟩
              · rw [hkind]
                exact List.mem_cons_self ..
              · rw [hpath, List.append_assoc]
                rfl
              · rw [hkind]
                rw [resolveOK_congr (resolvePath_dir_cons hfe n2 s)]
                exact hres
            · obtain ⟨h1, kname2, s, hk2, hs, hpath, hres⟩ := hmem2 m hm
              exact ⟨h1, kname2, s, List.mem_cons_of_mem _ hk2, hs, hpath, hres⟩
          · intro m hm m2 hm2 hskill hpre
            rcases List.mem_append.1 hm with hm | hm <;>
              rcases List.mem_append.1 hm2 with hm2 | hm2
            · exact hpf1 m hm m2 hm2 hskill hpre
            · obtain ⟨s, hs, hp1⟩ := hpaths1 m hm
              obtain ⟨kname2, s2, hk2, hp2⟩ := hpaths2 m2 hm2
              rw [hp1, hp2] at hpre
              have hheads :=
                (cons_isPre_cons ((List.prefix_append_right_inj base).1 hpre)).1
              have : kname ∈ restk.map Prod.fst := by
                rw [← hheads]
                exact List.mem_map_of_mem _ hk2
              exact absurd this hknot
            · obtain ⟨s, hs, hp1⟩ := hpaths1 m2 hm2
              obtain ⟨kname2, s2, hk2, hp2⟩ := hpaths2 m hm
              rw [hp1, hp2] at hpre
              have hheads :=
                (cons_isPre_cons ((List.prefix_append_right_inj base).1 hpre)).1
              have : kname ∈ restk.map Prod.fst := by
                rw [hheads]
                exact List.mem_map_of_mem _ hk2
              exact absurd this hknot
            · exact hpf2 m hm m2 hm2 hskill hpre

/-- Scan invariant lifted through the provider-prefix loop. -/
theorem scanPrefixes_inv :
    ∀ (bases : List Str) (root : List FsTree) (ms : List FileMapping),
      wfDirList root = true → nodupNames bases = true →
      scanPrefixes root bases = .ok ms →
      ((∀ m ∈ ms, m.strategy = .Copy ∧ ∃ b kname s, b ∈ bases ∧
        (kname, m.kind) ∈ KIND_DIRS ∧ s ≠ [] ∧ m.path = b :: kname :: s ∧
        resolveOK m.kind root (b :: kname :: s)) ∧
       PrefixFree ms) := by
  intro bases
  induction bases with
  | nil =>
    intro root ms _ _ hok
    have hok2 : (Except.ok [] : Except Str (List FileMapping)) = .ok ms := hok
    obtain rfl : ([] : List FileMapping) = ms := by injection hok2
    exact ⟨by intro m hm; simp at hm, PrefixFree_nil⟩
  | cons b restb ih =>
    intro root ms hwf hnd hok
    obtain ⟨hbnot, hndrest⟩ := nodupNames_cons hnd
    unfold scanPrefixes at hok
    rcases hfd : findDir b root with _ | c <;> rw [hfd] at hok
    · rcases hrest : scanPrefixes root restb with m | there <;> rw [hrest] at hok
      · exact Except.noConfusion hok
      · obtain rfl : [] ++ there = ms := by injection hok
        obtain ⟨hmem, hpf⟩ := ih root there hwf hndrest hrest
        constructor
        · intro m hm
          rw [List.nil_append] at hm
          obtain ⟨h1, b2, kname, s, hb2, hk, hs, hpath, hres⟩ := hmem m hm
          exact ⟨h1, b2, kname, s, List.mem_cons_of_mem _ hb2, hk, hs, hpath, hres⟩
        · rw [List.nil_append]
          exact hpf
    · have hok2 : (match scanKindsIn [b] c KIND_DIRS with
          | .error m => (.error m : Except Str (List FileMapping))
          | .ok here =>
            match scanPrefixes root restb with
            | .error m => .error m
            | .ok there => .ok (here ++ there)) = .ok ms := hok
      rcases hsc : scanKindsIn [b] c KIND_DIRS with m | here <;> rw [hsc] at hok2
      · exact Except.noConfusion hok2
      · rcases hrest : scanPrefixes root restb with m | there <;> rw [hrest] at hok2
        · exact Except.noConfusion hok2
        · obtain rfl : here ++ there = ms := by injection hok2
          have hwfc : wfDirList c = true := findDir_wfDirList hwf hfd
          have hfe : findEntry b root = some (.dir b c) := by
            have h2 : (nodupNames (root.map FsTree.name) &&
                wfForest root) = true := hwf
            exact findDir_findEntry (Bool.and_eq_true .. ▸ h2).1 hfd
          obtain ⟨hmem1, hpf1⟩ :=
            scanKindsIn_inv KIND_DIRS [b] c here hwfc (by decide) hsc
          obtain ⟨hmem2, hpf2⟩ := ih root there hwf hndrest hrest
          have hpaths1 : ∀ m ∈ here, ∃ t, m.path = b :: t := by
            intro m hm
            obtain ⟨-, kname, s, -, -, hpath, -⟩ := hmem1 m hm
            exact ⟨kname :: s, hpath⟩
          have hpaths2 : ∀ m ∈ there, ∃ b2 t, b2 ∈ restb ∧ m.path = b2 :: t := by
            intro m hm
            obtain ⟨-, b2, kname, s, hb2, -, -, hpath, -⟩ := hmem2 m hm
            exact ⟨b2, kname :: s, hb2, hpath⟩
          constructor
          · intro m hm
            rcases List.mem_append.1 hm with hm | hm
            · obtain ⟨h1, kname, s, hk, hs, hpath, hres⟩ := hmem1 m hm
              obtain ⟨s0, s1, rfl⟩ : ∃ s0 s1, s = s0 :: s1 :=
                match s, hs with
                | s0 :: s1, _ => ⟨s0, s1, rfl⟩
              refine ⟨h1, b, kname, s0 :: s1, List.mem_cons_self .., hk,
                by simp, hpath, ?_⟩
              rw [resolveOK_congr (resolvePath_dir_cons hfe kname (s0 :: s1))]
              exact hres
            · obtain ⟨h1, b2, kname, s, hb2, hk, hs, hpath, hres⟩ := hmem2 m hm
              exact ⟨h1, b2, kname, s, List.mem_cons_of_mem _ hb2, hk, hs,
                hpath, hres⟩
          · intro m hm m2 hm2 hskill hpre
            rcases List.mem_append.1 hm with hm | hm <;>
              rcases List.mem_append.1 hm2 with hm2 | hm2
            · exact hpf1 m hm m2 hm2 hskill hpre
            · obtain ⟨t, hp1⟩ := hpaths1 m hm
              obtain ⟨b2, t2, hb2, hp2⟩ := hpaths2 m2 hm2
              rw [hp1, hp2] at hpre
              have hheads := (cons_isPre_cons hpre).1
              exact absurd (hheads ▸ hb2) hbnot
            · obtain ⟨t, hp1⟩ := hpaths1 m2 hm2
              obtain ⟨b2, t2, hb2, hp2⟩ := hpaths2 m hm
              rw [hp1, hp2] at hpre
              have hheads := (cons_isPre_cons hpre).1
              exact absurd (hheads.symm ▸ hb2) hbnot
            · exact hpf2 m hm m2 hm2 hskill hpre

/-- The disjointness of provider bases and bare kind-directory names that
keeps the two scan phases from overlapping. -/
theorem bases_kinds_disjoint :
    ∀ x ∈ AgentProvider.project_bases, ∀ y ∈ KIND_DIRS.map Prod.fst, x ≠ y := by
  decide

/-- Scan invariant for the whole default convention. -/
theorem scan_default_convention_inv {root : List FsTree} {ms : List FileMapping}
    (hwf : wfDirList root = true) (hok : scan_default_convention root = .ok ms) :
    (∀ m ∈ ms, m.strategy = .Copy ∧ resolveOK m.kind root m.path) ∧
      PrefixFree ms := by
  unfold scan_default_convention at hok
  rcases hpre : scanPrefixes root AgentProvider.project_bases with m | a <;>
    rw [hpre] at hok
  · exact Except.noConfusion hok
  · rcases hbare : scanKindsIn [] root KIND_DIRS with m | b <;> rw [hbare] at hok
    · exact Except.noConfusion hok
    · obtain rfl : a ++ b = ms := by injection hok
      obtain ⟨hmem1, hpf1⟩ :=
        scanPrefixes_inv AgentProvider.project_bases root a hwf (by decide) hpre
      obtain ⟨hmem2, hpf2⟩ :=
        scanKindsIn_inv KIND_DIRS [] root b hwf (by decide) hbare
      have hpaths1 : ∀ m ∈ a, ∃ bb t, bb ∈ AgentProvider.project_bases ∧
          m.path = bb :: t := by
        intro m hm
        obtain ⟨-, bb, kname, s, hbb, -, -, hpath, -⟩ := hmem1 m hm
        exact ⟨bb, kname :: s, hbb, hpath⟩
      have hpaths2 : ∀ m ∈ b, ∃ kn t, kn ∈ KIND_DIRS.map Prod.fst ∧
          m.path = kn :: t := by
        intro m hm
        obtain ⟨-, kname, s, hk, -, hpath, -⟩ := hmem2 m hm
        exact ⟨kname, s, List.mem_map_of_mem _ hk, hpath⟩
      constructor
      · intro m hm
        rcases List.mem_append.1 hm with hm | hm
        · obtain ⟨h1, bb, kname, s, hbb, hk, hs, hpath, hres⟩ := hmem1 m hm
          refine ⟨h1, ?_⟩
          rw [hpath]
          exact hres
        · obtain ⟨h1, kname, s, hk, hs, hpath, hres⟩ := hmem2 m hm
          refine ⟨h1, ?_⟩
          rw [hpath]
          have hnil : m.path = [] ++ kname :: s := hpath
          exact hres
      · intro m hm m2 hm2 hskill hpre2
        rcases List.mem_append.1 hm with hm | hm <;>
          rcases List.mem_append.1 hm2 with hm2 | hm2
        · exact hpf1 m hm m2 hm2 hskill hpre2
        · obtain ⟨bb, t, hbb, hp1⟩ := hpaths1 m hm
          obtain ⟨kn, t2, hkn, hp2⟩ := hpaths2 m2 hm2
          rw [hp1, hp2] at hpre2
          have hheads := (cons_isPre_cons hpre2).1
          exact absurd hheads.symm (bases_kinds_disjoint bb hbb kn hkn)
        · obtain ⟨bb, t, hbb, hp1⟩ := hpaths1 m2 hm2
          obtain ⟨kn, t2, hkn, hp2⟩ := hpaths2 m hm
          rw [hp1, hp2] at hpre2
          have hheads := (cons_isPre_cons hpre2).1
          exact absurd hheads (bases_kinds_disjoint bb hbb kn hkn)
        · exact hpf2 m hm m2 hm2 hskill hpre2

/-- `retain` only removes elements: the deduplicated list is a sublist. -/
theorem dedupAux_sublist : ∀ (l : List FileMapping) (seen : List Str),
    (dedupAux seen l).Sublist l := by
  intro l
  induction l with
  | nil => intro seen; exact List.Sublist.refl []
  | cons m rest ih =>
    intro seen
    unfold dedupAux
    by_cases hmem : dedupKey m ∈ seen
    · rw [if_pos hmem]
      exact (ih seen).trans (List.sublist_cons_self m rest)
    · rw [if_neg hmem]
      exact (ih (dedupKey m :: seen)).cons₂ m

theorem mem_deduplicate {m : FileMapping} {l : List FileMapping}
    (h : m ∈ deduplicate l) : m ∈ l :=
  (dedupAux_sublist l []).subset h

/-! ### Claim theorems for the scanner (C1, C4) -/

/-- The root used in the C1 example: both `skills/a/SKILL.md` and
`.claude/skills/a/SKILL.md`. -/
def exampleDupRoot : List FsTree :=
  [.dir ((".claude").data)
    [.dir (("skills").data) [.dir (("a").data) [.file (("SKILL.md").data)]]],
   .dir (("skills").data) [.dir (("a").data) [.file (("SKILL.md").data)]]]

/-- `skills/incomplete/README.md`, no `SKILL.md`. -/
def exampleIncompleteRoot : List FsTree :=
  [.dir (("skills").data)
    [.dir (("incomplete").data) [.file (("README.md").data)]]]

/-- A skill nested two levels below `skills/`. -/
def exampleNestedRoot : List FsTree :=
  [.dir (("skills").data)
    [.dir (("category").data)
      [.dir (("deep-skill").data) [.file (("SKILL.md").data)]]]]

/-- The deduplication rule as the specification words it: walk the list in
order and keep an artifact exactly when no earlier kept artifact had its
`(kind, stem)` key. -/
def specFirstOccurrences : List FileMapping → List FileMapping
  | [] => []
  | m :: rest =>
    m :: specFirstOccurrences (rest.filter (fun m2 => dedupKey m2 ≠ dedupKey m))
termination_by l => l.length
decreasing_by
  simp only [List.length_cons]
  exact Nat.lt_succ_of_le (List.length_filter_le _ _)

theorem dedupAux_eq_spec : ∀ (l : List FileMapping) (seen : List Str),
    dedupAux seen l =
      specFirstOccurrences (l.filter (fun m => dedupKey m ∉ seen)) := by
  intro l
  induction l with
  | nil => intro seen; simp [dedupAux, specFirstOccurrences]
  | cons m rest ih =>
    intro seen
    unfold dedupAux
    by_cases hmem : dedupKey m ∈ seen
    · rw [if_pos hmem]
      have hfil : (m :: rest).filter (fun m2 => decide (dedupKey m2 ∉ seen)) =
          rest.filter (fun m2 => decide (dedupKey m2 ∉ seen)) := by
        rw [List.filter_cons]
        rw [if_neg (by simpa using hmem)]
      rw [hfil]
      exact ih seen
    · rw [if_neg hmem]
      have hfil : (m :: rest).filter (fun m2 => decide (dedupKey m2 ∉ seen)) =
          m :: rest.filter (fun m2 => decide (dedupKey m2 ∉ seen)) := by
        rw [List.filter_cons]
        rw [if_pos (by simpa using hmem)]
      rw [hfil]
      unfold specFirstOccurrences
      congr 1
      rw [ih (dedupKey m :: seen)]
      congr 1
      rw [List.filter_filter]
      apply List.filter_congr
      intro x _
      by_cases h1 : dedupKey x = dedupKey m <;>
        by_cases h2 : dedupKey x ∈ seen <;>
        simp [h1, h2, List.mem_cons]

theorem deduplicate_eq_spec (l : List FileMapping) :
    deduplicate l = specFirstOccurrences l := by
  unfold deduplicate
  rw [dedupAux_eq_spec]
  congr 1
  have : ∀ x ∈ l, (fun m => decide (dedupKey m ∉ ([] : List Str))) x = true := by
    intro x _
    simp
  rw [List.filter_eq_self.2 this]

/-- Claim C1: a default-convention scan is exactly "scan the
provider-prefixed directories, then the bare kind directories, concatenate
in that order, and deduplicate"; deduplication by the `(kind, stem)` key
keeps the first occurrence in scan order; so a root with both
`skills/a/SKILL.md` and `.claude/skills/a/SKILL.md` yields exactly one
`Skill` artifact, rooted under `.claude/`. -/
theorem scan_order_and_dedup :
    (∀ root : List FsTree, scan_agent_files root =
      (match scanPrefixes root AgentProvider.project_bases with
       | .error m => .error m
       | .ok a =>
         match scanKindsIn [] root KIND_DIRS with
         | .error m => .error m
         | .ok b => .ok (deduplicate (a ++ b)))) ∧
    (∀ l : List FileMapping, deduplicate l = specFirstOccurrences l) ∧
    scan_agent_files exampleDupRoot =
      .ok [⟨[(".claude").data, ("skills").data, ("a").data], .Skill, .Copy⟩] := by
  refine ⟨?_, deduplicate_eq_spec, rfl⟩
  intro root
  unfold scan_agent_files scan_default_convention
  cases hp : scanPrefixes root AgentProvider.project_bases
  · rfl
  · cases hb : scanKindsIn [] root KIND_DIRS <;> rfl

/-- Claim C4: every mapping of a default-convention scan of a well-formed
root satisfies the artifact invariant — a `Skill` path resolves to a
directory with a `SKILL.md` at its top level, a `Command`/`Agent` path
resolves to a file with extension `md` — and no returned artifact lies
strictly beneath a returned `Skill` directory; `skills/incomplete` with only
a `README.md` yields zero artifacts, while a sibling-descent example still
finds a nested skill. -/
theorem scan_artifact_invariant :
    (∀ (root : List FsTree) (ms : List FileMapping),
      wfDirList root = true → scan_agent_files root = .ok ms →
      (∀ m ∈ ms,
        m.strategy = .Copy ∧
        (m.kind = .Skill → ∃ nm c, resolvePath root m.path = some (.dir nm c) ∧
          hasSkillMd c = true) ∧
        (m.kind ≠ .Skill → ∃ nm, resolvePath root m.path = some (.file nm) ∧
          (stemExt nm).2 = some (("md").data))) ∧
      (∀ m ∈ ms, ∀ m2 ∈ ms, m2.kind = .Skill → m2.path <+: m.path →
        m2.path = m.path)) ∧
    scan_agent_files exampleIncompleteRoot = .ok [] ∧
    scan_agent_files exampleNestedRoot =
      .ok [⟨[("skills").data, ("category").data, ("deep-skill").data],
        .Skill, .Copy⟩] := by
  refine ⟨?_, rfl, rfl⟩
  intro root ms hwf hok
  unfold scan_agent_files at hok
  rcases hconv : scan_default_convention root with m | ms0 <;> rw [hconv] at hok
  · exact Except.noConfusion hok
  · obtain rfl : deduplicate ms0 = ms := by injection hok
    obtain ⟨hmem, hpf⟩ := scan_default_convention_inv hwf hconv
    constructor
    · intro m hm
      have hm0 := mem_deduplicate hm
      obtain ⟨h1, hres⟩ := hmem m hm0
      refine ⟨h1, ?_, ?_⟩
      · intro hsk
        rw [hsk] at hres
        exact hres
      · intro hnsk
        exact (resolveOK_not_skill hnsk).1 hres
    · intro m hm m2 hm2
      exact hpf m (mem_deduplicate hm) m2 (mem_deduplicate hm2)

/-- Witness for C4: the invariant applied to the nested-skill example. -/
theorem scan_artifact_invariant_witness :
    wfDirList exampleNestedRoot = true ∧
    ((∀ m ∈ [(⟨[("skills").data, ("category").data, ("deep-skill").data],
        FileKind.Skill, FileStrategy.Copy⟩ : FileMapping)],
      m.strategy = .Copy ∧
      (m.kind = .Skill → ∃ nm c,
        resolvePath exampleNestedRoot m.path = some (.dir nm c) ∧
        hasSkillMd c = true) ∧
      (m.kind ≠ .Skill → ∃ nm,
        resolvePath exampleNestedRoot m.path = some (.file nm) ∧
        (stemExt nm).2 = some (("md").data))) ∧
    (∀ m ∈ [(⟨[("skills").data, ("category").data, ("deep-skill").data],
        FileKind.Skill, FileStrategy.Copy⟩ : FileMapping)],
      ∀ m2 ∈ [(⟨[("skills").data, ("category").data, ("deep-skill").data],
        FileKind.Skill, FileStrategy.Copy⟩ : FileMapping)],
      m2.kind = .Skill → m2.path <+: m.path → m2.path = m.path)) :=
  ⟨by decide, scan_artifact_invariant.1 exampleNestedRoot _ (by decide) rfl⟩

/-! ### Claim theorem for pick filtering (C8) -/

/-- The artifact list of the C8 examples: two artifacts named `deploy` of
different kinds, and a `review` skill. -/
def examplePickArtifacts : List FileMapping :=
  [⟨[("skills").data, ("review").data], .Skill, .Copy⟩,
   ⟨[("skills").data, ("deploy").data], .Skill, .Copy⟩,
   ⟨[("commands").data, ("deploy.md").data], .Command, .Copy⟩]

theorem dropWhile_kind_token (kname name : Str)
    (hk : ∀ x ∈ kname, (fun x => decide (x ≠ '/')) x = true) :
    ((kname ++ '/' :: name).dropWhile (· ≠ '/')).tail = name := by
  rw [List.dropWhile_append]
  have h1 : kname.dropWhile (fun x => decide (x ≠ '/')) = [] := by
    rw [List.dropWhile_eq_nil_iff]
    exact hk
  rw [h1]
  simp

theorem takeWhile_kind_token (kname name : Str)
    (hk : ∀ x ∈ kname, (fun x => decide (x ≠ '/')) x = true) :
    (kname ++ '/' :: name).takeWhile (· ≠ '/') = kname := by
  rw [takeWhile_append_of_forall hk]
  have h1 : ('/' :: name).takeWhile (fun x => decide (x ≠ '/')) = [] := by
    rw [List.takeWhile_cons, if_neg (by simp)]
  rw [h1, List.append_nil]

/-- Claim C8: `filter_by_pick` keeps an artifact iff it matches at least one
pick token; a `kind/name` token matches exactly the artifacts of that kind
with stem `name`, a bare `name` token matches any kind with that stem;
`["commands/deploy"]` returns only the `deploy` command and `["deploy"]`
every kind named `deploy`. -/
theorem filter_by_pick_characterization :
    (∀ (mappings : List FileMapping) (pick : List Str) (m : FileMapping),
      m ∈ filter_by_pick mappings pick ↔
        m ∈ mappings ∧ ∃ p ∈ pick, pickMatches m p = true) ∧
    (∀ (m : FileMapping) (kname : Str) (kind : FileKind) (name : Str),
      (kname, kind) ∈ KIND_DIRS → '/' ∉ name →
      (pickMatches m (kname ++ '/' :: name) = true ↔
        m.kind = kind ∧ pathFileStemD m.path = name)) ∧
    (∀ (m : FileMapping) (name : Str), '/' ∉ name →
      (pickMatches m name = true ↔ pathFileStemD m.path = name)) ∧
    filter_by_pick examplePickArtifacts [("commands/deploy").data] =
      [⟨[("commands").data, ("deploy.md").data], .Command, .Copy⟩] ∧
    filter_by_pick examplePickArtifacts [("deploy").data] =
      [⟨[("skills").data, ("deploy").data], .Skill, .Copy⟩,
       ⟨[("commands").data, ("deploy.md").data], .Command, .Copy⟩] := by
  refine ⟨?_, ?_, ?_, rfl, rfl⟩
  · intro mappings pick m
    unfold filter_by_pick
    rw [List.mem_filter, List.any_eq_true]
  · intro m kname kind name hkd hname
    have hmem : '/' ∈ kname ++ '/' :: name := List.mem_append.2 (Or.inr (by simp))
    have hcases : (kname = ("skills").data ∧ kind = .Skill) ∨
        (kname = ("commands").data ∧ kind = .Command) ∨
        (kname = ("agents").data ∧ kind = .Agent) := by
      simp only [KIND_DIRS, List.mem_cons, List.not_mem_nil, or_false,
        Prod.mk.injEq] at hkd
      tauto
    have hnoslash : ∀ kn : Str, '/' ∉ kn →
        ∀ x ∈ kn, (fun x => decide (x ≠ '/')) x = true := by
      intro kn hkn x hx
      simp only [decide_eq_true_eq]
      intro heq
      exact hkn (heq ▸ hx)
    rcases hcases with ⟨rfl, rfl⟩ | ⟨rfl, rfl⟩ | ⟨rfl, rfl⟩ <;>
      · unfold pickMatches
        rw [if_pos hmem,
          takeWhile_kind_token _ _ (hnoslash _ (by decide)),
          dropWhile_kind_token _ _ (hnoslash _ (by decide))]
        simp
  · intro m name hname
    unfold pickMatches
    rw [if_neg hname]
    simp

/-- Witness for C8: the `kind/name` token semantics at `commands/deploy`. -/
theorem filter_by_pick_characterization_witness :
    pickMatches
        (⟨[("commands").data, ("deploy.md").data], .Command, .Copy⟩ : FileMapping)
        ((("commands").data) ++ '/' :: (("deploy").data)) = true ↔
      (⟨[("commands").data, ("deploy.md").data], .Command, .Copy⟩ : FileMapping).kind
          = .Command ∧
      pathFileStemD
          (⟨[("commands").data, ("deploy.md").data], .Command, .Copy⟩ : FileMapping).path
        = ("deploy").data :=
  filter_by_pick_characterization.2.1 _ _ _ _ (by decide) (by decide)

/-! ## manifest.rs: the dependency ledger (C9) -/

/-- `PathMapping` (manifest.rs). -/
structure PathMapping where
  path : Str
  kind : FileKind
deriving DecidableEq, Repr

/-- `DependencySpec` (manifest.rs). -/
structure DependencySpec where
  source : Str
  git_ref : Option Str
  pick : Option (List Str)
  strategy : Option FileStrategy
  paths : Option (List PathMapping)
deriving DecidableEq, Repr

/-- `Dependency` (manifest.rs): a bare source string or a detailed spec. -/
inductive Dependency
  | Simple (source : Str)
  | Detailed (spec : DependencySpec)
deriving DecidableEq, Repr

/-- `Dependency::source` (manifest.rs). -/
def Dependency.source : Dependency → Str
  | .Simple s => s
  | .Detailed d => d.source

/-- `Manifest` (manifest.rs). -/
structure Manifest where
  name : Str
  version : Str
  description : Option Str
  author : Option Str
  repository : Option Str
  dependencies : List Dependency
deriving DecidableEq, Repr

/-- `Manifest::has_dependency` (manifest.rs): normalized-source
comparison. -/
def Manifest.has_dependency (m : Manifest) (source : Str) : Bool :=
  m.dependencies.any
    (fun d => normalize_source d.source = normalize_source source)

/-- `Manifest::add_dependency` (manifest.rs): push unless a dependency with
the same normalized source exists; the Bool reports whether it was added. -/
def Manifest.add_dependency (m : Manifest) (dep : Dependency) :
    Manifest × Bool :=
  if m.has_dependency dep.source then (m, false)
  else ({ m with dependencies := m.dependencies ++ [dep] }, true)

/-- `Manifest::remove_dependency` (manifest.rs): retain the dependencies
with a different normalized source; the Bool reports whether the list
shrank. -/
def Manifest.remove_dependency (m : Manifest) (source : Str) :
    Manifest × Bool :=
  ({ m with
      dependencies :=
        m.dependencies.filter
          (fun d => normalize_source d.source ≠ normalize_source source) },
    (m.dependencies.filter
        (fun d => normalize_source d.source ≠ normalize_source source)).length
      < m.dependencies.length)

theorem length_filter_lt_iff {p : Dependency → Bool} :
    ∀ l : List Dependency,
      ((l.filter p).length < l.length ↔ ∃ d ∈ l, p d = false) := by
  intro l
  induction l with
  | nil => simp
  | cons d rest ih =>
    rw [List.filter_cons]
    by_cases hp : p d = true
    · rw [if_pos hp]
      simp only [List.length_cons, Nat.add_lt_add_iff_right, ih,
        List.mem_cons]
      constructor
      · rintro ⟨d2, hd2, hfd2⟩
        exact ⟨d2, Or.inr hd2, hfd2⟩
      · rintro ⟨d2, hd2 | hd2, hfd2⟩
        · rw [hd2] at hfd2
          rw [hp] at hfd2
          exact absurd hfd2 (by simp)
        · exact ⟨d2, hd2, hfd2⟩
    · rw [if_neg hp]
      have hlen := List.length_filter_le p rest
      refine ⟨fun _ => ⟨d, List.mem_cons_self .., by
        rw [Bool.eq_false_iff]; exact hp⟩, fun _ => ?_⟩
      simp only [List.length_cons]
      omega

/-- Claim C9: `add_dependency` appends and returns `true` iff no existing
entry has the same normalized source, returns `false` leaving the list
unchanged otherwise; `remove_dependency` retains exactly the entries with a
different normalized source and reports whether anything matched. -/
theorem add_remove_dependency_normalized :
    (∀ (m : Manifest) (dep : Dependency),
      ((¬ ∃ d ∈ m.dependencies,
          normalize_source d.source = normalize_source dep.source) →
        m.add_dependency dep =
          ({ m with dependencies := m.dependencies ++ [dep] }, true)) ∧
      ((∃ d ∈ m.dependencies,
          normalize_source d.source = normalize_source dep.source) →
        m.add_dependency dep = (m, false))) ∧
    (∀ (m : Manifest) (source : Str),
      (m.remove_dependency source).1.dependencies =
        m.dependencies.filter
          (fun d => normalize_source d.source ≠ normalize_source source) ∧
      ((m.remove_dependency source).2 = true ↔
        ∃ d ∈ m.dependencies,
          normalize_source d.source = normalize_source source)) := by
  constructor
  · intro m dep
    have hany : m.has_dependency dep.source = true ↔
        ∃ d ∈ m.dependencies,
          normalize_source d.source = normalize_source dep.source := by
      unfold Manifest.has_dependency
      rw [List.any_eq_true]
      simp
    constructor
    · intro hno
      unfold Manifest.add_dependency
      rw [if_neg (by rw [hany]; exact hno)]
    · intro hyes
      unfold Manifest.add_dependency
      rw [if_pos (hany.2 hyes)]
  · intro m source
    refine ⟨rfl, ?_⟩
    show decide ((m.dependencies.filter
        (fun d => normalize_source d.source ≠ normalize_source source)).length
        < m.dependencies.length) = true ↔ _
    rw [decide_eq_true_eq, length_filter_lt_iff]
    constructor
    · rintro ⟨d, hd, hfd⟩
      refine ⟨d, hd, ?_⟩
      have := of_decide_eq_false hfd
      simpa using this
    · rintro ⟨d, hd, heq⟩
      refine ⟨d, hd, ?_⟩
      rw [decide_eq_false_iff_not]
      simp [heq]

/-- Witness for C9: a manifest already holding `github.com/org/repo` rejects
the spelling `https://github.com/org/repo.git` as a duplicate. -/
theorem add_remove_dependency_normalized_witness :
    (⟨("p").data, ("1").data, none, none, none,
        [.Simple (("github.com/org/repo").data)]⟩ : Manifest).add_dependency
        (.Simple (("https://github.com/org/repo.git").data)) =
      ((⟨("p").data, ("1").data, none, none, none,
        [.Simple (("github.com/org/repo").data)]⟩ : Manifest), false) :=
  (add_remove_dependency_normalized.1 _ _).2 (by decide)

/-! ### Claim theorem for manifest (de)serialization of kinds and
strategies (C5) -/

/-- Claim C5 fails on the code: types.rs derives serde traits for
`FileKind` and `FileStrategy` without `#[serde(rename_all = "lowercase")]`
(which `FileScope` does carry), so the JSON strings are capitalized variant
names; lowercase `"skill"`/`"link"` are rejected, contradicting the schema
and manifest.rs's own `dependency_with_custom_paths` test, which feeds
`{"path": "prompts", "kind": "skill"}` and expects success. This theorem
evaluates the derived (de)serializers at the failing inputs. -/
theorem serde_kind_strategy_capitalized :
    FileKind.serdeOfJsonString (("skill").data) = none ∧
    FileKind.serdeToJsonString .Skill = ("Skill").data ∧
    FileStrategy.serdeOfJsonString (("link").data) = none ∧
    FileStrategy.serdeToJsonString .Link = ("Link").data ∧
    (∀ k, FileKind.serdeOfJsonString (FileKind.serdeToJsonString k) = some k) ∧
    (∀ s, FileStrategy.serdeOfJsonString (FileStrategy.serdeToJsonString s) =
      some s) := by
  refine ⟨by decide, rfl, by decide, rfl, ?_, ?_⟩ <;> intro x <;> cases x <;> decide

end Agentfiles
